import Mathlib

/-!
Shallow embedding of the compressed trie (radix tree) package: the node
and tree model, Insert with edge splitting, word gathering, the search
loop of the find-words operation (fuel indexed, because the source loop
does not terminate on every input), and the binary codec.

Byte strings are modelled as lists of natural numbers; genuine Go byte
values lie in 0..255 and every arithmetic step that can wrap in the
source carries an explicit mod 256, mod 65536 or mod 2^32.

Children of a node are kept as an association list ordered by strictly
increasing key.  This models the Go map together with the fact that
every iteration over children in the source sorts the keys first; all
children lists produced by the embedded operations are built through
the ordered update function below, so the representation invariant is
maintained by construction.
-/

namespace CTrie

/-- A byte string: Go strings in this package are raw byte sequences. -/
abbrev ByteStr := List Nat

/-- A trie node: edge label, children keyed by byte, word marker. -/
inductive Node : Type where
  | mk : ByteStr → List (Nat × Node) → Bool → Node

/-- The label stored on the edge into this node. -/
def Node.label : Node → ByteStr
  | .mk l _ _ => l

/-- The children map, as a key-ordered association list. -/
def Node.children : Node → List (Nat × Node)
  | .mk _ cs _ => cs

/-- Whether the path down to this node is a stored word. -/
def Node.isWord : Node → Bool
  | .mk _ _ w => w

/-- Map lookup, as in cur.children[firstChar]. -/
def lookupChild : List (Nat × Node) → Nat → Option Node
  | [], _ => none
  | (k, c) :: rest, key => if key = k then some c else lookupChild rest key

/-- Map update, as in cur.children[key] = n, keeping the list ordered. -/
def setChild : List (Nat × Node) → Nat → Node → List (Nat × Node)
  | [], key, n => [(key, n)]
  | (k, c) :: rest, key, n =>
    if key = k then (key, n) :: rest
    else if key < k then (key, n) :: (k, c) :: rest
    else (k, c) :: setChild rest key n

/-- Length of the longest common initial run of two byte strings (the
commonLen loop in Insert). -/
def cpl : ByteStr → ByteStr → Nat
  | a :: as, b :: bs => if a = b then cpl as bs + 1 else 0
  | _, _ => 0

mutual

/-- Number of nodes in the subtree rooted at a node, the node included. -/
def countNodes : Node → Nat
  | .mk _ cs _ => 1 + countList cs

/-- Total number of nodes in the subtrees of a children list. -/
def countList : List (Nat × Node) → Nat
  | [] => 0
  | (_, c) :: rest => countNodes c + countList rest

end

/-- The label length (plus one) of the child selected by the first byte of
the word; zero when no such child exists.  Only used as the last component
of the termination measure of insertNode. -/
def lookLen (n : Node) (word : ByteStr) : Nat :=
  match word with
  | [] => 0
  | c :: _ =>
    match lookupChild n.children c with
    | none => 0
    | some child => child.label.length + 1

/-- One Insert call on the subtree rooted at the given node: returns the
updated node together with the number of nodes created (the increments the
source applies to t.N).  The source is an iterative loop; the descend case
(the common part equals the whole child label) recurses into the child with
the matched bytes consumed.  In the split case the source creates the
intermediate node, re-keys the child below it and re-runs the loop at the
same node; that next iteration always descends into the fresh intermediate
node, whose label is the common part of the word, consuming those bytes,
which is how the recursion is phrased here. -/
def insertNode : Node → ByteStr → Node × Nat
  | .mk l cs w, [] => (.mk l cs true, 0)
  | .mk l cs w, c :: rest =>
    match hx : lookupChild cs c with
    | none => (.mk l (setChild cs c (.mk (c :: rest) [] true)) w, 1)
    | some child =>
      if hk : cpl (c :: rest) child.label = child.label.length then
        let r := insertNode child ((c :: rest).drop (cpl (c :: rest) child.label))
        (.mk l (setChild cs c r.1) w, r.2)
      else
        let r := insertNode
          (Node.mk (child.label.take (cpl (c :: rest) child.label))
            [((child.label.drop (cpl (c :: rest) child.label)).headI,
               Node.mk (child.label.drop (cpl (c :: rest) child.label))
                 child.children child.isWord)]
            (child.label.drop (cpl (c :: rest) child.label)).isEmpty)
          ((c :: rest).drop (cpl (c :: rest) child.label))
        (.mk l (setChild cs c r.1) w, 1 + r.2)
termination_by n word => (word.length, countNodes n, lookLen n word)
decreasing_by
  · -- descend case: either the matched label is nonempty and the word
    -- shrinks, or it is empty and the cursor moves to a smaller subtree
    have hcpl_le : ∀ (a b : ByteStr), cpl a b ≤ b.length := by
      intro a
      induction a with
      | nil => intro b; cases b <;> simp [cpl]
      | cons x xs ih =>
        intro b
        cases b with
        | nil => simp [cpl]
        | cons y ys =>
          by_cases hxy : x = y
          · simpa [cpl, hxy] using ih ys
          · simp [cpl, hxy]
    have hmemcount : ∀ (cs : List (Nat × Node)) (key : Nat) (ch : Node),
        lookupChild cs key = some ch → countNodes ch ≤ countList cs := by
      intro cs
      induction cs with
      | nil => intro key ch h; simp [lookupChild] at h
      | cons p rest ih =>
        intro key ch h
        obtain ⟨k, cnode⟩ := p
        simp only [lookupChild] at h
        by_cases hk2 : key = k
        · simp only [hk2, if_true, Option.some.injEq] at h
          subst h
          simp only [countList]
          omega
        · simp only [hk2, if_false] at h
          have := ih key ch h
          simp only [countList]
          omega
    simp only [Prod.lex_iff]
    have hle := hcpl_le (c :: rest) child.label
    have hmem := hmemcount cs c child hx
    have hcnt : countNodes (Node.mk l cs w) = 1 + countList cs := by
      simp [countNodes]
    have hdl : (List.drop (cpl (c :: rest) child.label) (c :: rest)).length
        = (c :: rest).length - cpl (c :: rest) child.label := List.length_drop _ _
    by_cases hnil : child.label.length = 0
    · have hk0 : cpl (c :: rest) child.label = 0 := by omega
      refine Or.inr ⟨?_, Or.inl ?_⟩
      · rw [hdl]; omega
      · rw [hcnt]; omega
    · refine Or.inl ?_
      rw [hdl]
      simp only [List.length_cons]
      omega
  · -- split case: the source loop then descends into the intermediate node
    have hcpl_le : ∀ (a b : ByteStr), cpl a b ≤ b.length := by
      intro a
      induction a with
      | nil => intro b; cases b <;> simp [cpl]
      | cons x xs ih =>
        intro b
        cases b with
        | nil => simp [cpl]
        | cons y ys =>
          by_cases hxy : x = y
          · simpa [cpl, hxy] using ih ys
          · simp [cpl, hxy]
    have hmemcount : ∀ (cs : List (Nat × Node)) (key : Nat) (ch : Node),
        lookupChild cs key = some ch → countNodes ch ≤ countList cs := by
      intro cs
      induction cs with
      | nil => intro key ch h; simp [lookupChild] at h
      | cons p rest ih =>
        intro key ch h
        obtain ⟨k, cnd⟩ := p
        simp only [lookupChild] at h
        by_cases hk2 : key = k
        · simp only [hk2, if_true, Option.some.injEq] at h
          subst h
          simp only [countList]
          omega
        · simp only [hk2, if_false] at h
          have := ih key ch h
          simp only [countList]
          omega
    simp only [Prod.lex_iff]
    have hle := hcpl_le (c :: rest) child.label
    have hmem := hmemcount cs c child hx
    have hklt : cpl (c :: rest) child.label < child.label.length := by omega
    have hdl : (List.drop (cpl (c :: rest) child.label) (c :: rest)).length
        = (c :: rest).length - cpl (c :: rest) child.label := List.length_drop _ _
    by_cases hkz : cpl (c :: rest) child.label = 0
    · -- no byte matched: same word, the new node is no larger and its only
      -- child key differs from the first byte of the word
      rw [hkz]
      simp only [List.take_zero, List.drop_zero]
      refine Or.inr ⟨trivial, ?_⟩
      have hcc : countNodes
          (Node.mk []
            [(child.label.headI,
               Node.mk child.label child.children child.isWord)]
            child.label.isEmpty)
          = 1 + countNodes child := by
        cases child with
        | mk a b cw => simp [countNodes, countList, Node.children, Node.isWord]
      have hcnt : countNodes (Node.mk l cs w) = 1 + countList cs := by
        simp [countNodes]
      have hlab : child.label.headI ≠ c := by
        cases hl : child.label with
        | nil => rw [hl] at hklt; simp at hklt
        | cons b bt =>
          simp only [hl, List.headI]
          intro hbc
          rw [hl, hbc] at hkz
          simp [cpl] at hkz
      have hlab2 : ¬ (c = child.label.headI) := fun hh => hlab hh.symm
      have hl1 : lookLen
          (Node.mk []
            [(child.label.headI,
               Node.mk child.label child.children child.isWord)]
            child.label.isEmpty)
          (c :: rest) = 0 := by
        simp [lookLen, Node.children, lookupChild, hlab2]
      have hl2 : lookLen (Node.mk l cs w) (c :: rest)
          = child.label.length + 1 := by
        simp [lookLen, Node.children, hx]
      by_cases hlt : 1 + countNodes child < 1 + countList cs
      · exact Or.inl (by rw [hcc, hcnt]; omega)
      · refine Or.inr ⟨by rw [hcc, hcnt]; omega, ?_⟩
        rw [hl1, hl2]
        omega
    · refine Or.inl ?_
      rw [hdl]
      simp only [List.length_cons]
      omega

mutual

/-- Collect the words of a subtree: the accumulated path when this node is
marked, then the subtrees of the children in key order (the source sorts the
map keys before iterating). -/
def gatherWords : Node → ByteStr → List ByteStr
  | .mk _ cs w, path => (if w then [path] else []) ++ gatherList cs path

/-- The children part of gatherWords. -/
def gatherList : List (Nat × Node) → ByteStr → List ByteStr
  | [], _ => []
  | (_, c) :: rest, path =>
    gatherWords c (path ++ c.label) ++ gatherList rest path

end

/-- A tree: a root node plus the node counter field N maintained by Insert
and trusted by the codec. -/
structure Tree where
  root : Node
  N : Nat

/-- NewTree: an empty tree, root only. -/
def NewTree : Tree := Tree.mk (Node.mk [] [] false) 1

/-- Insert a word into a tree: updates the root and adds the number of
created nodes to N. -/
def Insert (t : Tree) (word : ByteStr) : Tree :=
  Tree.mk (insertNode t.root word).1 (t.N + (insertNode t.root word).2)

/-- Insert a list of words, in order, into a fresh tree. -/
def buildTree (ws : List ByteStr) : Tree := ws.foldl Insert NewTree

/-- The descent loop of the find-words-by-initial-segment operation, indexed
by fuel because the source loop runs forever when the query diverges from a
child label part way through (no branch of the loop body is taken and no
state changes).  none models exhausted fuel, never a source return. -/
def findLoop : Nat → Node → ByteStr → ByteStr → Option (List ByteStr)
  | 0, _, _, _ => none
  | fuel + 1, cur, curPath, p =>
    if p = [] then some (gatherWords cur curPath)
    else
      match lookupChild cur.children p.headI with
      | none => some []
      | some child =>
        if child.label.length ≤ p.length ∧ p.take child.label.length = child.label
        then
          findLoop fuel child (curPath ++ child.label) (p.drop child.label.length)
        else if child.label.take p.length = p then
          some (gatherWords child (curPath ++ child.label))
        else
          findLoop fuel cur curPath p

/-- The public find operation, starting at the root with an empty
accumulated path. -/
def FindWords (t : Tree) (p : ByteStr) (fuel : Nat) : Option (List ByteStr) :=
  findLoop fuel t.root [] p

/-- Is the key of the first entry (if any) strictly above k. -/
def firstKeyGt (k : Nat) : List (Nat × Node) → Bool
  | [] => true
  | (k2, _) :: _ => decide (k < k2)

mutual

/-- Structural well-formedness maintained by NewTree and Insert: every child
has a nonempty label whose first byte is its key, and the children list is
strictly ordered by key (so no two children share a first byte). -/
def wfNode : Node → Bool
  | .mk _ cs _ => wfChildren cs

/-- Well-formedness of a children list. -/
def wfChildren : List (Nat × Node) → Bool
  | [] => true
  | (k, c) :: rest =>
    !c.label.isEmpty && decide (c.label.headI = k) && wfNode c
      && firstKeyGt k rest && wfChildren rest

end

mutual

/-- Whether a subtree satisfies the serialization format limits: every label
fits the two byte length field and every node has at most 255 children. -/
def fitsLimits : Node → Bool
  | .mk l cs _ => decide (l.length < 65536) && decide (cs.length ≤ 255) && fitsList cs

/-- Format limits for a children list. -/
def fitsList : List (Nat × Node) → Bool
  | [] => true
  | (_, c) :: rest => fitsLimits c && fitsList rest

end

mutual

/-- Whether some label of the subtree exceeds the 65535 byte limit of the
format (the condition under which the string serializer panics). -/
def hasBigLabel : Node → Bool
  | .mk l cs _ => decide (65536 ≤ l.length) || hasBigList cs

/-- Oversized label somewhere in a children list. -/
def hasBigList : List (Nat × Node) → Bool
  | [] => false
  | (_, c) :: rest => hasBigLabel c || hasBigList rest

end

/-- The two panics the serializer can raise: the node count does not fit the
4 byte header field, or a label length does not fit its 2 byte field.  Both
are unrecoverable faults in the source (panic), modelled as the error
outcome of the serializer. -/
inductive SerializePanic : Type where
  | nodeCountOverflow : SerializePanic
  | labelLenOverflow : SerializePanic
deriving DecidableEq

/-- Errors of the deserializer: a propagated io read failure (EOF or short
read), a magic mismatch (ErrInvalidFormat), or a version mismatch
(ErrUnsupportedVersion). -/
inductive DeserializeError : Type where
  | eof : DeserializeError
  | invalidFormat : DeserializeError
  | unsupportedVersion : DeserializeError
deriving DecidableEq

/-- Big-endian bytes of a 16 bit value (binary.BigEndian.PutUint16 applied
to the uint16 truncation of the value). -/
def u16be (v : Nat) : List Nat := [v / 256 % 256, v % 256]

/-- Big-endian bytes of a 32 bit value. -/
def u32be (v : Nat) : List Nat :=
  [v / 16777216 % 256, v / 65536 % 256, v / 256 % 256, v % 256]

/-- The 32 bit magic number of the format: bytes C, T, R, E. -/
def ctreMagic : Nat := 67 * 16777216 + 84 * 65536 + 82 * 256 + 69

/-- The file format version. -/
def fmtVersion : Nat := 1

/-- Length-framed string encoding: two big-endian length bytes then the raw
bytes; panics when the length does not survive the round trip through the
16 bit field. -/
def serializeString (s : ByteStr) : Except SerializePanic (List Nat) :=
  if s.length % 65536 = s.length then .ok (u16be s.length ++ s)
  else .error .labelLenOverflow

mutual

/-- Recursive node encoder: label framing, one byte for isWord, one byte
for the child count (truncated to a byte exactly as the source does), then
each child as key byte followed by its record, in key order. -/
def serializeNode : Node → Except SerializePanic (List Nat)
  | .mk l cs w =>
    match serializeString l with
    | .error e => .error e
    | .ok sl =>
      match serializeChildren cs with
      | .error e => .error e
      | .ok body =>
        .ok (sl ++ [if w then 1 else 0] ++ [cs.length % 256] ++ body)

/-- Encoder for a children list. -/
def serializeChildren : List (Nat × Node) → Except SerializePanic (List Nat)
  | [] => .ok []
  | (k, c) :: rest =>
    match serializeNode c with
    | .error e => .error e
    | .ok sc =>
      match serializeChildren rest with
      | .error e => .error e
      | .ok srest => .ok (k :: (sc ++ srest))

end

/-- Serialize a tree: panics when N does not survive the round trip through
uint32, otherwise header (magic, version, node count) followed by the root
record.  The in-memory byte sink never fails, so the only failures are the
two panics. -/
def Serialize (t : Tree) : Except SerializePanic (List Nat) :=
  if t.N % 4294967296 = t.N then
    match serializeNode t.root with
    | .error e => .error e
    | .ok body => .ok (u32be ctreMagic ++ u32be fmtVersion ++ u32be t.N ++ body)
  else .error .nodeCountOverflow

mutual

/-- Modelled from the spec wording of the node record: a 2 byte big-endian
label length, the label bytes, one byte for isWord (0 or 1), one byte for
the child count, then for each child in ascending key order one key byte
followed by the child record. -/
def specRecord : Node → List Nat
  | .mk l cs w =>
    u16be l.length ++ l ++ [if w then 1 else 0] ++ [cs.length]
      ++ specChildren cs

/-- Spec-side encoding of a children list. -/
def specChildren : List (Nat × Node) → List Nat
  | [] => []
  | (k, c) :: rest => k :: (specRecord c ++ specChildren rest)

end

/-- Modelled from the spec wording of the stream: 4 byte magic, 4 byte
version equal to 1, 4 byte node count, all big-endian, then the recursive
pre-order encoding starting at the root. -/
def specStream (t : Tree) : List Nat :=
  u32be ctreMagic ++ u32be 1 ++ u32be t.N ++ specRecord t.root

/-- Big-endian value of a byte list. -/
def beVal (l : List Nat) : Nat := l.foldl (fun a b => a * 256 + b) 0

/-- Length-framed string decoder: reads two length bytes then that many
bytes; a short read is an io error propagated unchanged. -/
def deserializeString (bs : List Nat) :
    Except DeserializeError (ByteStr × List Nat) :=
  match bs with
  | b1 :: b0 :: rest =>
    if b1 * 256 + b0 ≤ rest.length
    then .ok (rest.take (b1 * 256 + b0), rest.drop (b1 * 256 + b0))
    else .error .eof
  | _ => .error .eof

mutual

/-- Recursive node decoder: label, isWord byte, child count byte, then that
many children, each a key byte followed by a node record.  The remainder is
returned with a bound on its length so that the recursion is seen to
consume input. -/
def parseNode (bs : List Nat) :
    Except DeserializeError (Node × {r : List Nat // r.length ≤ bs.length}) :=
  match hds : deserializeString bs with
  | .error e => .error e
  | .ok (lab, bs1) =>
    match bs1 with
    | [] => .error .eof
    | wb :: bs2 =>
      match bs2 with
      | [] => .error .eof
      | cb :: bs3 =>
        match parseChildren cb [] bs3 with
        | .error e => .error e
        | .ok (cs, r) =>
          .ok (Node.mk lab cs (wb == 1), ⟨r.val, by
            have hr := r.property
            have hb : bs3.length + 4 ≤ bs.length := by
              rcases bs with _ | ⟨x, bs'⟩
              · simp [deserializeString] at hds
              · rcases bs' with _ | ⟨y, rest⟩
                · simp [deserializeString] at hds
                · simp only [deserializeString] at hds
                  split at hds
                  · simp only [Except.ok.injEq, Prod.mk.injEq] at hds
                    obtain ⟨hlab, hbs1⟩ := hds
                    have hlen : (List.drop (x * 256 + y) rest).length
                        = rest.length - (x * 256 + y) := List.length_drop _ _
                    rw [hbs1] at hlen
                    simp only [List.length_cons] at hlen ⊢
                    omega
                  · simp at hds
            omega⟩)
termination_by bs.length
decreasing_by
  rcases bs with _ | ⟨x, bs'⟩
  · simp [deserializeString] at hds
  · rcases bs' with _ | ⟨y, rest⟩
    · simp [deserializeString] at hds
    · simp only [deserializeString] at hds
      split at hds
      · simp only [Except.ok.injEq, Prod.mk.injEq] at hds
        obtain ⟨hlab, hbs1⟩ := hds
        have hlen : (List.drop (x * 256 + y) rest).length
            = rest.length - (x * 256 + y) := List.length_drop _ _
        rw [hbs1] at hlen
        simp only [List.length_cons] at hlen ⊢
        omega
      · simp at hds

/-- Decoder of cnt children, accumulating map updates in order. -/
def parseChildren (cnt : Nat) (acc : List (Nat × Node)) (bs : List Nat) :
    Except DeserializeError
      ((List (Nat × Node)) × {r : List Nat // r.length ≤ bs.length}) :=
  match cnt with
  | 0 => .ok (acc, ⟨bs, Nat.le_refl _⟩)
  | cnt' + 1 =>
    match bs with
    | [] => .error .eof
    | k :: bs1 =>
      match parseNode bs1 with
      | .error e => .error e
      | .ok (c, r) =>
        match parseChildren cnt' (setChild acc k c) r.val with
        | .error e => .error e
        | .ok (cs2, r2) =>
          .ok (cs2, ⟨r2.val, by
            have h1 := r.property
            have h2 := r2.property
            simp only [List.length_cons]
            omega⟩)
termination_by bs.length
decreasing_by
  · simp only [List.length_cons]
    omega
  · have h1 := r.property
    simp only [List.length_cons]
    omega

end

/-- The node decoder with the length bound of the remainder erased. -/
def parseNodeE (bs : List Nat) :
    Except DeserializeError (Node × List Nat) :=
  match parseNode bs with
  | .error e => .error e
  | .ok (n, r) => .ok (n, r.val)

/-- Deserialize a tree from a byte stream: read and check the 12 byte
header (magic then version), store the declared node count, then decode the
root record.  Bytes after the root record are ignored, as in the source. -/
def DeserializeTree (bs : List Nat) : Except DeserializeError Tree :=
  if 12 ≤ bs.length then
    if beVal (bs.take 4) = ctreMagic then
      if beVal ((bs.drop 4).take 4) = fmtVersion then
        match parseNodeE (bs.drop 12) with
        | .error e => .error e
        | .ok (root, _) => .ok (Tree.mk root (beVal ((bs.drop 8).take 4)))
      else .error .unsupportedVersion
    else .error .invalidFormat
  else .error .eof

/-- The set of words stored below a node, as a relation: the empty word
when the node is marked, and for every child its label followed by a word
of that child. -/
inductive Sem : Node → ByteStr → Prop where
  | here : ∀ (l : ByteStr) (cs : List (Nat × Node)), Sem (Node.mk l cs true) []
  | via : ∀ (l : ByteStr) (cs : List (Nat × Node)) (w : Bool) (k : Nat)
      (c : Node) (u : ByteStr),
      (k, c) ∈ cs → Sem c u → Sem (Node.mk l cs w) (c.label ++ u)

/-- The children decoder with the length bound of the remainder erased. -/
def parseChildrenE (cnt : Nat) (acc : List (Nat × Node)) (bs : List Nat) :
    Except DeserializeError ((List (Nat × Node)) × List Nat) :=
  match parseChildren cnt acc bs with
  | .error e => .error e
  | .ok (cs, r) => .ok (cs, r.val)

/-!  Theorems: first the list-level toolbox, then the structural facts about
Insert, the semantics of gathering and searching, and finally the codec. -/

theorem cpl_le_right : ∀ (a b : ByteStr), cpl a b ≤ b.length := by
  intro a
  induction a with
  | nil => intro b; cases b <;> simp [cpl]
  | cons x xs ih =>
    intro b
    cases b with
    | nil => simp [cpl]
    | cons y ys =>
      by_cases hxy : x = y
      · simpa [cpl, hxy] using ih ys
      · simp [cpl, hxy]

theorem cpl_le_left : ∀ (a b : ByteStr), cpl a b ≤ a.length := by
  intro a
  induction a with
  | nil => intro b; cases b <;> simp [cpl]
  | cons x xs ih =>
    intro b
    cases b with
    | nil => simp [cpl]
    | cons y ys =>
      by_cases hxy : x = y
      · simpa [cpl, hxy] using ih ys
      · simp [cpl, hxy]


theorem cpl_take : ∀ (a b : ByteStr), a.take (cpl a b) = b.take (cpl a b) := by
  intro a
  induction a with
  | nil => intro b; cases b <;> simp [cpl]
  | cons x xs ih =>
    intro b
    cases b with
    | nil => simp [cpl]
    | cons y ys =>
      by_cases hxy : x = y
      · simp [cpl, hxy, ih ys]
      · simp [cpl, hxy]

theorem cpl_append : ∀ (b x : ByteStr), cpl (b ++ x) b = b.length := by
  intro b
  induction b with
  | nil => intro x; cases x <;> simp [cpl]
  | cons y ys ih => intro x; simp [cpl, ih x]

theorem cpl_head_ne : ∀ (a b : ByteStr), cpl a b < a.length → cpl a b < b.length →
    (a.drop (cpl a b)).headI ≠ (b.drop (cpl a b)).headI := by
  intro a
  induction a with
  | nil => intro b h1 h2; simp at h1
  | cons x xs ih =>
    intro b h1 h2
    cases b with
    | nil => simp at h2
    | cons y ys =>
      by_cases hxy : x = y
      · simp only [cpl, hxy, if_true] at h1 h2 ⊢
        simp only [List.length_cons] at h1 h2
        simpa [List.drop] using ih ys (by omega) (by omega)
      · simpa [cpl, hxy] using hxy

theorem lookupChild_mem : ∀ (cs : List (Nat × Node)) (k : Nat) (c : Node),
    lookupChild cs k = some c → (k, c) ∈ cs := by
  intro cs
  induction cs with
  | nil => intro k c h; simp [lookupChild] at h
  | cons p rest ih =>
    intro k c h
    obtain ⟨k1, c1⟩ := p
    simp only [lookupChild] at h
    by_cases hk : k = k1
    · simp only [hk, if_true, Option.some.injEq] at h
      subst h; subst hk
      exact List.mem_cons_self _ _
    · simp only [hk, if_false] at h
      exact List.mem_cons_of_mem _ (ih k c h)

theorem lookupChild_none_notmem : ∀ (cs : List (Nat × Node)) (k : Nat),
    lookupChild cs k = none → ∀ c, (k, c) ∉ cs := by
  intro cs
  induction cs with
  | nil => intro k _ c h; simp at h
  | cons p rest ih =>
    intro k h c hc
    obtain ⟨k1, c1⟩ := p
    simp only [lookupChild] at h
    by_cases hk : k = k1
    · simp [hk] at h
    · simp only [hk, if_false] at h
      rcases List.mem_cons.1 hc with h1 | h1
      · exact hk (congrArg Prod.fst h1)
      · exact ih k h c h1

theorem countNodes_pos : ∀ (n : Node), 1 ≤ countNodes n := by
  intro n
  cases n with
  | mk l cs w => simp only [countNodes]; omega

theorem countNodes_le_of_mem : ∀ (cs : List (Nat × Node)) (k : Nat) (c : Node),
    (k, c) ∈ cs → countNodes c ≤ countList cs := by
  intro cs
  induction cs with
  | nil => intro k c h; simp at h
  | cons p rest ih =>
    intro k c h
    obtain ⟨k1, c1⟩ := p
    rcases List.mem_cons.1 h with h1 | h1
    · cases h1
      simp only [countList]
      omega
    · have := ih k c h1
      simp only [countList]
      omega

theorem countNodes_lt_of_mem : ∀ (l : ByteStr) (cs : List (Nat × Node)) (w : Bool)
    (k : Nat) (c : Node), (k, c) ∈ cs → countNodes c < countNodes (Node.mk l cs w) := by
  intro l cs w k c h
  have := countNodes_le_of_mem cs k c h
  simp only [countNodes]
  omega

/-- Structural induction over nodes through the children lists. -/
theorem node_ind (P : Node → Prop)
    (step : ∀ (l : ByteStr) (cs : List (Nat × Node)) (w : Bool),
      (∀ k c, (k, c) ∈ cs → P c) → P (Node.mk l cs w)) :
    ∀ n, P n := by
  suffices h : ∀ (m : Nat) (n : Node), countNodes n < m → P n from
    fun n => h (countNodes n + 1) n (Nat.lt_succ_self _)
  intro m
  induction m with
  | zero => intro n h; omega
  | succ m ih =>
    intro n h
    cases n with
    | mk l cs w =>
      refine step l cs w (fun k c hm => ih c ?_)
      have := countNodes_lt_of_mem l cs w k c hm
      omega

theorem wfChildren_cons_iff : ∀ (k : Nat) (c : Node) (rest : List (Nat × Node)),
    wfChildren ((k, c) :: rest) = true ↔
      (c.label ≠ [] ∧ c.label.headI = k ∧ wfNode c = true
        ∧ firstKeyGt k rest = true ∧ wfChildren rest = true) := by
  intro k c rest
  simp only [wfChildren, Bool.and_eq_true, Bool.not_eq_true', decide_eq_true_eq]
  constructor
  · rintro ⟨⟨⟨⟨h1, h2⟩, h3⟩, h4⟩, h5⟩
    exact ⟨by simpa [List.isEmpty_iff] using h1, h2, h3, h4, h5⟩
  · rintro ⟨h1, h2, h3, h4, h5⟩
    exact ⟨⟨⟨⟨by simpa [List.isEmpty_iff] using h1, h2⟩, h3⟩, h4⟩, h5⟩

theorem wf_key_lt : ∀ (rest : List (Nat × Node)) (k : Nat) (c : Node),
    wfChildren ((k, c) :: rest) = true →
    ∀ k2 c2, (k2, c2) ∈ rest → k < k2 := by
  intro rest
  induction rest with
  | nil => intro k c _ k2 c2 h2; simp at h2
  | cons p rest2 ih =>
    intro k c h k2 c2 h2
    obtain ⟨k1, c1⟩ := p
    have h' := (wfChildren_cons_iff _ _ _).1 h
    obtain ⟨_, _, _, hgt, hwf⟩ := h'
    simp only [firstKeyGt, decide_eq_true_eq] at hgt
    rcases List.mem_cons.1 h2 with h3 | h3
    · cases h3; exact hgt
    · exact lt_trans hgt (ih k1 c1 hwf k2 c2 h3)

theorem wf_mem_lookup : ∀ (cs : List (Nat × Node)) (k : Nat) (c : Node),
    wfChildren cs = true → (k, c) ∈ cs → lookupChild cs k = some c := by
  intro cs
  induction cs with
  | nil => intro k c _ h; simp at h
  | cons p rest ih =>
    intro k c hwf h
    obtain ⟨k1, c1⟩ := p
    rcases List.mem_cons.1 h with h1 | h1
    · cases h1; simp [lookupChild]
    · have hlt := wf_key_lt rest k1 c1 hwf k c h1
      have hwf' := ((wfChildren_cons_iff _ _ _).1 hwf).2.2.2.2
      simp only [lookupChild]
      have hne : ¬ k = k1 := by omega
      simp only [hne, if_false]
      exact ih k c hwf' h1

theorem wf_children_of_mem : ∀ (cs : List (Nat × Node)) (k : Nat) (c : Node),
    wfChildren cs = true → (k, c) ∈ cs →
    c.label ≠ [] ∧ c.label.headI = k ∧ wfNode c = true := by
  intro cs
  induction cs with
  | nil => intro k c _ h; simp at h
  | cons p rest ih =>
    intro k c hwf h
    obtain ⟨k1, c1⟩ := p
    have h' := (wfChildren_cons_iff _ _ _).1 hwf
    rcases List.mem_cons.1 h with h1 | h1
    · cases h1; exact ⟨h'.1, h'.2.1, h'.2.2.1⟩
    · exact ih k c h'.2.2.2.2 h1

theorem mem_setChild_of_none : ∀ (cs : List (Nat × Node)) (key : Nat) (v : Node)
    (k' : Nat) (c' : Node), lookupChild cs key = none →
    ((k', c') ∈ setChild cs key v ↔ (k' = key ∧ c' = v) ∨ (k', c') ∈ cs) := by
  intro cs
  induction cs with
  | nil =>
    intro key v k' c' _
    simp [setChild]
  | cons p rest ih =>
    intro key v k' c' h
    obtain ⟨k1, c1⟩ := p
    simp only [lookupChild] at h
    by_cases hk : key = k1
    · simp [hk] at h
    · simp only [hk, if_false] at h
      by_cases hlt : key < k1
      · simp only [setChild, hk, if_false, hlt, if_true]
        constructor
        · intro hm
          rcases List.mem_cons.1 hm with h1 | h1
          · cases h1; exact Or.inl ⟨rfl, rfl⟩
          · exact Or.inr h1
        · rintro (⟨rfl, rfl⟩ | h1)
          · exact List.mem_cons_self _ _
          · exact List.mem_cons_of_mem _ h1
      · simp only [setChild, hk, if_false, hlt, if_false]
        constructor
        · intro hm
          rcases List.mem_cons.1 hm with h1 | h1
          · exact Or.inr (List.mem_cons.2 (Or.inl h1))
          · rcases (ih key v k' c' h).1 h1 with h2 | h2
            · exact Or.inl h2
            · exact Or.inr (List.mem_cons_of_mem _ h2)
        · rintro (⟨rfl, rfl⟩ | h1)
          · exact List.mem_cons_of_mem _ ((ih _ _ _ _ h).2 (Or.inl ⟨rfl, rfl⟩))
          · rcases List.mem_cons.1 h1 with h2 | h2
            · exact h2 ▸ List.mem_cons_self _ _
            · exact List.mem_cons_of_mem _ ((ih key v k' c' h).2 (Or.inr h2))

theorem mem_setChild_of_some : ∀ (cs : List (Nat × Node)) (key : Nat)
    (old v : Node) (k' : Nat) (c' : Node),
    wfChildren cs = true → lookupChild cs key = some old →
    ((k', c') ∈ setChild cs key v ↔
      (k' = key ∧ c' = v) ∨ ((k', c') ∈ cs ∧ k' ≠ key)) := by
  intro cs
  induction cs with
  | nil => intro key old v k' c' _ h; simp [lookupChild] at h
  | cons p rest ih =>
    intro key old v k' c' hwf h
    obtain ⟨k1, c1⟩ := p
    have hwf' := (wfChildren_cons_iff _ _ _).1 hwf
    simp only [lookupChild] at h
    by_cases hk : key = k1
    · simp only [hk, if_true, Option.some.injEq] at h
      subst hk
      simp only [setChild, if_true]
      constructor
      · intro hm
        rcases List.mem_cons.1 hm with h1 | h1
        · cases h1; exact Or.inl ⟨rfl, rfl⟩
        · have := wf_key_lt rest key c1 hwf k' c' h1
          exact Or.inr ⟨List.mem_cons_of_mem _ h1, by omega⟩
      · rintro (⟨rfl, rfl⟩ | ⟨h1, h2⟩)
        · exact List.mem_cons_self _ _
        · rcases List.mem_cons.1 h1 with h3 | h3
          · exact absurd (congrArg Prod.fst h3) (by simpa using h2)
          · exact List.mem_cons_of_mem _ h3
    · simp only [hk, if_false] at h
      have hk1 : k1 < key := by
        have := wf_key_lt rest k1 c1 hwf key old (lookupChild_mem rest key old h)
        exact this
      have hnlt : ¬ key < k1 := by omega
      simp only [setChild, hk, if_false, hnlt, if_false]
      constructor
      · intro hm
        rcases List.mem_cons.1 hm with h1 | h1
        · cases h1
          exact Or.inr ⟨List.mem_cons_self _ _, by omega⟩
        · rcases (ih key old v k' c' hwf'.2.2.2.2 h).1 h1 with h2 | h2
          · exact Or.inl h2
          · exact Or.inr ⟨List.mem_cons_of_mem _ h2.1, h2.2⟩
      · rintro (⟨rfl, rfl⟩ | ⟨h1, h2⟩)
        · exact List.mem_cons_of_mem _
            ((ih _ old _ _ _ hwf'.2.2.2.2 h).2 (Or.inl ⟨rfl, rfl⟩))
        · rcases List.mem_cons.1 h1 with h3 | h3
          · exact h3 ▸ List.mem_cons_self _ _
          · exact List.mem_cons_of_mem _
              ((ih key old v k' c' hwf'.2.2.2.2 h).2 (Or.inr ⟨h3, h2⟩))

theorem setChild_self : ∀ (cs : List (Nat × Node)) (key : Nat) (c : Node),
    wfChildren cs = true → lookupChild cs key = some c →
    setChild cs key c = cs := by
  intro cs
  induction cs with
  | nil => intro key c _ h; simp [lookupChild] at h
  | cons p rest ih =>
    intro key c hwf h
    obtain ⟨k1, c1⟩ := p
    have hwf' := (wfChildren_cons_iff _ _ _).1 hwf
    simp only [lookupChild] at h
    by_cases hk : key = k1
    · simp only [hk, if_true, Option.some.injEq] at h
      subst hk; subst h
      simp [setChild]
    · simp only [hk, if_false] at h
      have hk1 : k1 < key :=
        wf_key_lt rest k1 c1 hwf key c (lookupChild_mem rest key c h)
      have hnlt : ¬ key < k1 := by omega
      simp only [setChild, hk, if_false, hnlt, if_false]
      rw [ih key c hwf'.2.2.2.2 h]

theorem firstKeyGt_setChild : ∀ (cs : List (Nat × Node)) (b key : Nat) (v : Node),
    firstKeyGt b cs = true → b < key → firstKeyGt b (setChild cs key v) = true := by
  intro cs b key v h hb
  cases cs with
  | nil => simp [setChild, firstKeyGt]; omega
  | cons p rest =>
    obtain ⟨k1, c1⟩ := p
    simp only [firstKeyGt, decide_eq_true_eq] at h
    by_cases hk : key = k1
    · simp [setChild, hk, firstKeyGt]; omega
    · by_cases hlt : key < k1
      · simp [setChild, hk, hlt, firstKeyGt]; omega
      · simp [setChild, hk, hlt, firstKeyGt]; omega

theorem wf_setChild : ∀ (cs : List (Nat × Node)) (key : Nat) (v : Node),
    wfChildren cs = true → v.label ≠ [] → v.label.headI = key →
    wfNode v = true → wfChildren (setChild cs key v) = true := by
  intro cs
  induction cs with
  | nil =>
    intro key v _ h1 h2 h3
    simp only [setChild]
    exact (wfChildren_cons_iff _ _ _).2 ⟨h1, h2, h3, by simp [firstKeyGt], by simp [wfChildren]⟩
  | cons p rest ih =>
    intro key v hwf h1 h2 h3
    obtain ⟨k1, c1⟩ := p
    have hwf' := (wfChildren_cons_iff _ _ _).1 hwf
    by_cases hk : key = k1
    · simp only [setChild, hk, if_true]
      subst hk
      exact (wfChildren_cons_iff _ _ _).2 ⟨h1, h2, h3, hwf'.2.2.2.1, hwf'.2.2.2.2⟩
    · by_cases hlt : key < k1
      · simp only [setChild, hk, if_false, hlt, if_true]
        refine (wfChildren_cons_iff _ _ _).2 ⟨h1, h2, h3, ?_, hwf⟩
        simp [firstKeyGt]; omega
      · simp only [setChild, hk, if_false, hlt, if_false]
        refine (wfChildren_cons_iff _ _ _).2
          ⟨hwf'.1, hwf'.2.1, hwf'.2.2.1, ?_, ih key v hwf'.2.2.2.2 h1 h2 h3⟩
        exact firstKeyGt_setChild rest k1 key v hwf'.2.2.2.1 (by omega)

theorem countList_setChild_none : ∀ (cs : List (Nat × Node)) (key : Nat) (v : Node),
    lookupChild cs key = none →
    countList (setChild cs key v) = countList cs + countNodes v := by
  intro cs
  induction cs with
  | nil => intro key v _; simp [setChild, countList]
  | cons p rest ih =>
    intro key v h
    obtain ⟨k1, c1⟩ := p
    simp only [lookupChild] at h
    by_cases hk : key = k1
    · simp [hk] at h
    · simp only [hk, if_false] at h
      by_cases hlt : key < k1
      · simp only [setChild, hk, if_false, hlt, if_true, countList]
        omega
      · simp only [setChild, hk, if_false, hlt, if_false, countList]
        rw [ih key v h]
        omega

theorem countList_setChild_some : ∀ (cs : List (Nat × Node)) (key : Nat)
    (old v : Node), wfChildren cs = true → lookupChild cs key = some old →
    countList (setChild cs key v) + countNodes old = countList cs + countNodes v := by
  intro cs
  induction cs with
  | nil => intro key old v _ h; simp [lookupChild] at h
  | cons p rest ih =>
    intro key old v hwf h
    obtain ⟨k1, c1⟩ := p
    have hwf' := (wfChildren_cons_iff _ _ _).1 hwf
    simp only [lookupChild] at h
    by_cases hk : key = k1
    · simp only [hk, if_true, Option.some.injEq] at h
      subst h
      simp only [setChild, hk, if_true, countList]
      omega
    · simp only [hk, if_false] at h
      have hk1 : k1 < key :=
        wf_key_lt rest k1 c1 hwf key old (lookupChild_mem rest key old h)
      have hnlt : ¬ key < k1 := by omega
      simp only [setChild, hk, if_false, hnlt, if_false, countList]
      have := ih key old v hwf'.2.2.2.2 h
      omega

theorem insertNode_nil : ∀ (l : ByteStr) (cs : List (Nat × Node)) (w : Bool),
    insertNode (Node.mk l cs w) [] = (Node.mk l cs true, 0) := by
  intro l cs w
  simp [insertNode]

theorem insertNode_cons_none : ∀ (l : ByteStr) (cs : List (Nat × Node)) (w : Bool)
    (c : Nat) (rest : ByteStr), lookupChild cs c = none →
    insertNode (Node.mk l cs w) (c :: rest)
      = (Node.mk l (setChild cs c (Node.mk (c :: rest) [] true)) w, 1) := by
  intro l cs w c rest h
  rw [insertNode]
  split
  · rfl
  · rename_i child hx
    rw [h] at hx
    exact absurd hx (by simp)

theorem insertNode_cons_descend : ∀ (l : ByteStr) (cs : List (Nat × Node))
    (w : Bool) (c : Nat) (rest : ByteStr) (child : Node),
    lookupChild cs c = some child →
    cpl (c :: rest) child.label = child.label.length →
    insertNode (Node.mk l cs w) (c :: rest)
      = (Node.mk l
          (setChild cs c
            (insertNode child
              ((c :: rest).drop (cpl (c :: rest) child.label))).1) w,
         (insertNode child ((c :: rest).drop (cpl (c :: rest) child.label))).2) := by
  intro l cs w c rest child h hk
  rw [insertNode]
  split
  · rename_i hx
    rw [h] at hx
    exact absurd hx (by simp)
  · rename_i child2 hx
    rw [h] at hx
    injection hx with hx
    subst hx
    rw [dif_pos hk]

theorem insertNode_cons_split : ∀ (l : ByteStr) (cs : List (Nat × Node))
    (w : Bool) (c : Nat) (rest : ByteStr) (child : Node),
    lookupChild cs c = some child →
    ¬ cpl (c :: rest) child.label = child.label.length →
    insertNode (Node.mk l cs w) (c :: rest)
      = (Node.mk l
          (setChild cs c
            (insertNode
              (Node.mk (child.label.take (cpl (c :: rest) child.label))
                [((child.label.drop (cpl (c :: rest) child.label)).headI,
                   Node.mk (child.label.drop (cpl (c :: rest) child.label))
                     child.children child.isWord)]
                (child.label.drop (cpl (c :: rest) child.label)).isEmpty)
              ((c :: rest).drop (cpl (c :: rest) child.label))).1) w,
         1 + (insertNode
              (Node.mk (child.label.take (cpl (c :: rest) child.label))
                [((child.label.drop (cpl (c :: rest) child.label)).headI,
                   Node.mk (child.label.drop (cpl (c :: rest) child.label))
                     child.children child.isWord)]
                (child.label.drop (cpl (c :: rest) child.label)).isEmpty)
              ((c :: rest).drop (cpl (c :: rest) child.label))).2) := by
  intro l cs w c rest child h hk
  rw [insertNode]
  split
  · rename_i hx
    rw [h] at hx
    exact absurd hx (by simp)
  · rename_i child2 hx
    rw [h] at hx
    injection hx with hx
    subst hx
    rw [dif_neg hk]

theorem wfNode_eq : ∀ (n : Node), wfNode n = wfChildren n.children := by
  intro n
  cases n with
  | mk l cs w => simp [wfNode, Node.children]

theorem insertNode_label : ∀ (n : Node) (word : ByteStr),
    (insertNode n word).1.label = n.label := by
  intro n word
  induction n, word using insertNode.induct with
  | case1 l cs w => rw [insertNode_nil]; rfl
  | case2 l cs w c rest hx => rw [insertNode_cons_none l cs w c rest hx]; rfl
  | case3 l cs w c rest child hx hk ih =>
    rw [insertNode_cons_descend l cs w c rest child hx hk]; rfl
  | case4 l cs w c rest child hx hk ih =>
    rw [insertNode_cons_split l cs w c rest child hx hk]; rfl

theorem cpl_prefix_eq : ∀ (a b : ByteStr),
    b.take (cpl a b) ++ a.drop (cpl a b) = a := by
  intro a b
  rw [← cpl_take]
  exact List.take_append_drop _ _

theorem cpl_full_append : ∀ (a b : ByteStr), cpl a b = b.length →
    b ++ a.drop (cpl a b) = a := by
  intro a b hk
  have h := cpl_prefix_eq a b
  rw [hk, List.take_length] at h
  rw [hk]
  exact h

theorem cpl_cons_same : ∀ (c : Nat) (rest lt : ByteStr),
    1 ≤ cpl (c :: rest) (c :: lt) := by
  intro c rest lt
  simp [cpl]

theorem insertNode_wf : ∀ (n : Node) (word : ByteStr),
    wfNode n = true → wfNode (insertNode n word).1 = true := by
  intro n word
  induction n, word using insertNode.induct with
  | case1 l cs w =>
    intro h
    rw [insertNode_nil]
    simpa [wfNode] using h
  | case2 l cs w c rest hx =>
    intro h
    rw [insertNode_cons_none l cs w c rest hx]
    simp only [wfNode] at h ⊢
    exact wf_setChild cs c _ h (by simp [Node.label]) (by simp [Node.label])
      (by simp [wfNode, wfChildren])
  | case3 l cs w c rest child hx hk ih =>
    intro h
    rw [insertNode_cons_descend l cs w c rest child hx hk]
    simp only [wfNode] at h ⊢
    have hch := wf_children_of_mem cs c child h (lookupChild_mem cs c child hx)
    have hwfc : wfNode (insertNode child ((c :: rest).drop (cpl (c :: rest) child.label))).1 = true :=
      ih hch.2.2
    refine wf_setChild cs c _ h ?_ ?_ hwfc
    · rw [insertNode_label]; exact hch.1
    · rw [insertNode_label]; exact hch.2.1
  | case4 l cs w c rest child hx hk ih =>
    intro h
    rw [insertNode_cons_split l cs w c rest child hx hk]
    simp only [wfNode] at h ⊢
    have hch := wf_children_of_mem cs c child h (lookupChild_mem cs c child hx)
    have hklt : cpl (c :: rest) child.label < child.label.length := by
      have := cpl_le_right (c :: rest) child.label
      omega
    have hrem : child.label.drop (cpl (c :: rest) child.label) ≠ [] := by
      intro hdrop
      have := List.drop_eq_nil_iff_le.1 hdrop
      omega
    have hwfnew : wfNode
        (Node.mk (child.label.take (cpl (c :: rest) child.label))
          [((child.label.drop (cpl (c :: rest) child.label)).headI,
             Node.mk (child.label.drop (cpl (c :: rest) child.label))
               child.children child.isWord)]
          (child.label.drop (cpl (c :: rest) child.label)).isEmpty) = true := by
      rw [wfNode_eq]
      refine (wfChildren_cons_iff _ _ _).2 ⟨?_, ?_, ?_, ?_, ?_⟩
      · simpa [Node.label] using hrem
      · simp [Node.label]
      · rw [wfNode_eq]
        simpa [Node.children] using (wfNode_eq child ▸ hch.2.2)
      · simp [firstKeyGt]
      · simp [wfChildren]
    have hwfr := ih hwfnew
    -- the label of the updated intermediate node starts with c and is nonempty
    obtain ⟨lab, ccs, cw⟩ := child
    simp only [Node.label] at hch hklt hrem ⊢
    have hlab : ∃ lt, lab = c :: lt := by
      cases lab with
      | nil => exact absurd rfl hch.1
      | cons b bt =>
        have := hch.2.1
        simp only [Node.label, List.headI] at this
        exact ⟨bt, by rw [this]⟩
    obtain ⟨lt, rfl⟩ := hlab
    have hone : 1 ≤ cpl (c :: rest) (c :: lt) := cpl_cons_same c rest lt
    refine wf_setChild cs c _ h ?_ ?_ hwfr
    · rw [insertNode_label]
      simp only [Node.label]
      cases hcp : cpl (c :: rest) (c :: lt) with
      | zero => omega
      | succ m => simp [List.take]
    · rw [insertNode_label]
      simp only [Node.label]
      cases hcp : cpl (c :: rest) (c :: lt) with
      | zero => omega
      | succ m => simp [List.take, List.headI]

theorem sem_mk_iff : ∀ (l : ByteStr) (cs : List (Nat × Node)) (w : Bool)
    (x : ByteStr), Sem (Node.mk l cs w) x ↔
      ((x = [] ∧ w = true) ∨ ∃ k c u, (k, c) ∈ cs ∧ x = c.label ++ u ∧ Sem c u) := by
  intro l cs w x
  constructor
  · intro h
    cases h with
    | here => exact Or.inl ⟨rfl, rfl⟩
    | via _ _ _ k c u hm hs => exact Or.inr ⟨k, c, u, hm, rfl, hs⟩
  · rintro (⟨rfl, rfl⟩ | ⟨k, c, u, hm, rfl, hs⟩)
    · exact Sem.here l cs
    · exact Sem.via l cs w k c u hm hs

theorem sem_leaf_iff : ∀ (lab u : ByteStr),
    Sem (Node.mk lab [] true) u ↔ u = [] := by
  intro lab u
  rw [sem_mk_iff]
  simp

theorem sem_label_irrel : ∀ (l l' : ByteStr) (cs : List (Nat × Node)) (w : Bool)
    (x : ByteStr), Sem (Node.mk l cs w) x ↔ Sem (Node.mk l' cs w) x := by
  intro l l' cs w x
  rw [sem_mk_iff, sem_mk_iff]

theorem insertNode_sem : ∀ (n : Node) (word : ByteStr), wfNode n = true →
    ∀ x, (Sem (insertNode n word).1 x ↔ x = word ∨ Sem n x) := by
  intro n word
  induction n, word using insertNode.induct with
  | case1 l cs w =>
    intro h x
    rw [insertNode_nil]
    simp only [sem_mk_iff]
    constructor
    · rintro (⟨rfl, _⟩ | hc)
      · exact Or.inl rfl
      · exact Or.inr (Or.inr hc)
    · rintro (rfl | (⟨rfl, rfl⟩ | hc))
      · exact Or.inl ⟨rfl, trivial⟩
      · exact Or.inl ⟨rfl, trivial⟩
      · exact Or.inr hc
  | case2 l cs w c rest hx =>
    intro h x
    rw [insertNode_cons_none l cs w c rest hx]
    simp only [wfNode] at h
    simp only [sem_mk_iff]
    constructor
    · rintro (hw | ⟨k, ch, u, hm, rfl, hs⟩)
      · exact Or.inr (Or.inl hw)
      · rcases (mem_setChild_of_none cs c _ k ch hx).1 hm with ⟨rfl, rfl⟩ | hm2
        · rw [(sem_leaf_iff _ u).1 hs]
          exact Or.inl (by simp [Node.label])
        · exact Or.inr (Or.inr ⟨k, ch, u, hm2, rfl, hs⟩)
    · rintro (rfl | (hw | ⟨k, ch, u, hm, rfl, hs⟩))
      · refine Or.inr ⟨c, Node.mk (c :: rest) [] true, [], ?_, ?_, ?_⟩
        · exact (mem_setChild_of_none cs c _ c _ hx).2 (Or.inl ⟨rfl, rfl⟩)
        · simp [Node.label]
        · exact (sem_leaf_iff _ []).2 rfl
      · exact Or.inl hw
      · exact Or.inr ⟨k, ch, u, (mem_setChild_of_none cs c _ k ch hx).2 (Or.inr hm), rfl, hs⟩
  | case3 l cs w c rest child hx hk ih =>
    intro h x
    rw [insertNode_cons_descend l cs w c rest child hx hk]
    simp only [wfNode] at h
    have hch := wf_children_of_mem cs c child h (lookupChild_mem cs c child hx)
    have hihs := ih hch.2.2
    have hlw : child.label ++ (c :: rest).drop (cpl (c :: rest) child.label)
        = c :: rest := cpl_full_append (c :: rest) child.label hk
    have hrl : (insertNode child
        ((c :: rest).drop (cpl (c :: rest) child.label))).1.label = child.label :=
      insertNode_label _ _
    simp only [sem_mk_iff]
    constructor
    · rintro (hw | ⟨k, ch, u, hm, rfl, hs⟩)
      · exact Or.inr (Or.inl hw)
      · rcases (mem_setChild_of_some cs c child _ k ch h hx).1 hm with ⟨rfl, rfl⟩ | ⟨hm2, hne⟩
        · rw [hrl]
          rcases (hihs u).1 hs with rfl | hsc
          · exact Or.inl hlw
          · exact Or.inr (Or.inr ⟨k, child, u, lookupChild_mem _ _ child hx, rfl, hsc⟩)
        · exact Or.inr (Or.inr ⟨k, ch, u, hm2, rfl, hs⟩)
    · rintro (rfl | (hw | ⟨k, ch, u, hm, rfl, hs⟩))
      · refine Or.inr ⟨c,
          (insertNode child ((c :: rest).drop (cpl (c :: rest) child.label))).1,
          (c :: rest).drop (cpl (c :: rest) child.label), ?_, ?_, ?_⟩
        · exact (mem_setChild_of_some cs c child _ c _ h hx).2 (Or.inl ⟨rfl, rfl⟩)
        · rw [hrl, hlw]
        · exact (hihs _).2 (Or.inl rfl)
      · exact Or.inl hw
      · by_cases hkc : k = c
        · subst hkc
          have hcc : ch = child := by
            have := wf_mem_lookup cs k ch h hm
            rw [hx] at this
            injection this with this
            exact this.symm
          subst hcc
          refine Or.inr ⟨k,
            (insertNode ch ((k :: rest).drop (cpl (k :: rest) ch.label))).1,
            u, ?_, ?_, ?_⟩
          · exact (mem_setChild_of_some cs k ch _ k _ h hx).2 (Or.inl ⟨rfl, rfl⟩)
          · rw [hrl]
          · exact (hihs u).2 (Or.inr hs)
        · exact Or.inr ⟨k, ch, u,
            (mem_setChild_of_some cs c child _ k ch h hx).2 (Or.inr ⟨hm, hkc⟩), rfl, hs⟩
  | case4 l cs w c rest child hx hk ih =>
    intro h x
    rw [insertNode_cons_split l cs w c rest child hx hk]
    simp only [wfNode] at h
    have hch := wf_children_of_mem cs c child h (lookupChild_mem cs c child hx)
    have hklt : cpl (c :: rest) child.label < child.label.length := by
      have := cpl_le_right (c :: rest) child.label
      omega
    have hrem : child.label.drop (cpl (c :: rest) child.label) ≠ [] := by
      intro hdrop
      have := List.drop_eq_nil_iff_le.1 hdrop
      omega
    have hremE : (child.label.drop (cpl (c :: rest) child.label)).isEmpty = false := by
      simpa [List.isEmpty_iff] using hrem
    have hwfnew : wfNode
        (Node.mk (child.label.take (cpl (c :: rest) child.label))
          [((child.label.drop (cpl (c :: rest) child.label)).headI,
             Node.mk (child.label.drop (cpl (c :: rest) child.label))
               child.children child.isWord)]
          (child.label.drop (cpl (c :: rest) child.label)).isEmpty) = true := by
      rw [wfNode_eq]
      refine (wfChildren_cons_iff _ _ _).2 ⟨?_, ?_, ?_, ?_, ?_⟩
      · simpa [Node.label] using hrem
      · simp [Node.label]
      · rw [wfNode_eq]
        simpa [Node.children] using (wfNode_eq child ▸ hch.2.2)
      · simp [firstKeyGt]
      · simp [wfChildren]
    have hihs := ih hwfnew
    have hrl : (insertNode
        (Node.mk (child.label.take (cpl (c :: rest) child.label))
          [((child.label.drop (cpl (c :: rest) child.label)).headI,
             Node.mk (child.label.drop (cpl (c :: rest) child.label))
               child.children child.isWord)]
          (child.label.drop (cpl (c :: rest) child.label)).isEmpty)
        ((c :: rest).drop (cpl (c :: rest) child.label))).1.label
        = child.label.take (cpl (c :: rest) child.label) := by
      rw [insertNode_label]
      rfl
    -- words of the fresh intermediate node are the words of the child,
    -- re-rooted below the common part
    have hsemNew : ∀ u, Sem
        (Node.mk (child.label.take (cpl (c :: rest) child.label))
          [((child.label.drop (cpl (c :: rest) child.label)).headI,
             Node.mk (child.label.drop (cpl (c :: rest) child.label))
               child.children child.isWord)]
          (child.label.drop (cpl (c :: rest) child.label)).isEmpty) u
        ↔ ∃ u', u = child.label.drop (cpl (c :: rest) child.label) ++ u' ∧ Sem child u' := by
      intro u
      rw [sem_mk_iff]
      constructor
      · rintro (⟨rfl, habs⟩ | ⟨k2, c2, u', hm2, rfl, hs2⟩)
        · rw [hremE] at habs; cases habs
        · rcases List.mem_singleton.1 hm2 with h2
          have hc2 : c2 = Node.mk (child.label.drop (cpl (c :: rest) child.label))
              child.children child.isWord := congrArg Prod.snd h2
          subst hc2
          refine ⟨u', by simp [Node.label], ?_⟩
          cases child with
          | mk lab ccs cw =>
            simpa [Node.children, Node.isWord] using
              ((sem_label_irrel _ lab ccs cw u').1 hs2)
      · rintro ⟨u', rfl, hs2⟩
        refine Or.inr ⟨(child.label.drop (cpl (c :: rest) child.label)).headI,
          Node.mk (child.label.drop (cpl (c :: rest) child.label))
            child.children child.isWord, u', List.mem_singleton.2 rfl,
          by simp [Node.label], ?_⟩
        cases child with
        | mk lab ccs cw =>
          exact (sem_label_irrel lab _ ccs cw u').1 (by simpa [Node.children, Node.isWord] using hs2)
    have htd : child.label.take (cpl (c :: rest) child.label)
        ++ (c :: rest).drop (cpl (c :: rest) child.label) = c :: rest :=
      cpl_prefix_eq (c :: rest) child.label
    have htl : child.label.take (cpl (c :: rest) child.label)
        ++ child.label.drop (cpl (c :: rest) child.label) = child.label :=
      List.take_append_drop _ _
    simp only [sem_mk_iff]
    constructor
    · rintro (hw | ⟨k, ch, u, hm, rfl, hs⟩)
      · exact Or.inr (Or.inl hw)
      · rcases (mem_setChild_of_some cs c child _ k ch h hx).1 hm with ⟨rfl, rfl⟩ | ⟨hm2, hne⟩
        · rw [hrl]
          rcases (hihs u).1 hs with rfl | hsn
          · exact Or.inl (by rw [htd])
          · rcases (hsemNew u).1 hsn with ⟨u', rfl, hsc⟩
            refine Or.inr (Or.inr ⟨k, child, u', lookupChild_mem _ _ child hx, ?_, hsc⟩)
            rw [← List.append_assoc, htl]
        · exact Or.inr (Or.inr ⟨k, ch, u, hm2, rfl, hs⟩)
    · rintro (rfl | (hw | ⟨k, ch, u, hm, rfl, hs⟩))
      · refine Or.inr ⟨c,
          (insertNode
            (Node.mk (child.label.take (cpl (c :: rest) child.label))
              [((child.label.drop (cpl (c :: rest) child.label)).headI,
                 Node.mk (child.label.drop (cpl (c :: rest) child.label))
                   child.children child.isWord)]
              (child.label.drop (cpl (c :: rest) child.label)).isEmpty)
            ((c :: rest).drop (cpl (c :: rest) child.label))).1,
          (c :: rest).drop (cpl (c :: rest) child.label), ?_, ?_, ?_⟩
        · exact (mem_setChild_of_some cs c child _ c _ h hx).2 (Or.inl ⟨rfl, rfl⟩)
        · rw [hrl, htd]
        · exact (hihs _).2 (Or.inl rfl)
      · exact Or.inl hw
      · by_cases hkc : k = c
        · subst hkc
          have hcc : ch = child := by
            have := wf_mem_lookup cs k ch h hm
            rw [hx] at this
            injection this with this
            exact this.symm
          subst hcc
          refine Or.inr ⟨k,
            (insertNode
              (Node.mk (ch.label.take (cpl (k :: rest) ch.label))
                [((ch.label.drop (cpl (k :: rest) ch.label)).headI,
                   Node.mk (ch.label.drop (cpl (k :: rest) ch.label))
                     ch.children ch.isWord)]
                (ch.label.drop (cpl (k :: rest) ch.label)).isEmpty)
              ((k :: rest).drop (cpl (k :: rest) ch.label))).1,
            ch.label.drop (cpl (k :: rest) ch.label) ++ u, ?_, ?_, ?_⟩
          · exact (mem_setChild_of_some cs k ch _ k _ h hx).2 (Or.inl ⟨rfl, rfl⟩)
          · rw [hrl, ← List.append_assoc, htl]
          · exact (hihs _).2 (Or.inr ((hsemNew _).2 ⟨u, rfl, hs⟩))
        · exact Or.inr ⟨k, ch, u,
            (mem_setChild_of_some cs c child _ k ch h hx).2 (Or.inr ⟨hm, hkc⟩), rfl, hs⟩

theorem insertNode_count : ∀ (n : Node) (word : ByteStr), wfNode n = true →
    countNodes (insertNode n word).1 = countNodes n + (insertNode n word).2 := by
  intro n word
  induction n, word using insertNode.induct with
  | case1 l cs w =>
    intro h
    rw [insertNode_nil]
    simp [countNodes]
  | case2 l cs w c rest hx =>
    intro h
    rw [insertNode_cons_none l cs w c rest hx]
    simp only [countNodes]
    rw [countList_setChild_none cs c _ hx]
    simp only [countNodes, countList]
    omega
  | case3 l cs w c rest child hx hk ih =>
    intro h
    rw [insertNode_cons_descend l cs w c rest child hx hk]
    simp only [wfNode] at h
    have hch := wf_children_of_mem cs c child h (lookupChild_mem cs c child hx)
    have hih := ih hch.2.2
    simp only [countNodes]
    have := countList_setChild_some cs c child
      (insertNode child ((c :: rest).drop (cpl (c :: rest) child.label))).1 h hx
    omega
  | case4 l cs w c rest child hx hk ih =>
    intro h
    rw [insertNode_cons_split l cs w c rest child hx hk]
    simp only [wfNode] at h
    have hch := wf_children_of_mem cs c child h (lookupChild_mem cs c child hx)
    have hklt : cpl (c :: rest) child.label < child.label.length := by
      have := cpl_le_right (c :: rest) child.label
      omega
    have hrem : child.label.drop (cpl (c :: rest) child.label) ≠ [] := by
      intro hdrop
      have := List.drop_eq_nil_iff_le.1 hdrop
      omega
    have hwfnew : wfNode
        (Node.mk (child.label.take (cpl (c :: rest) child.label))
          [((child.label.drop (cpl (c :: rest) child.label)).headI,
             Node.mk (child.label.drop (cpl (c :: rest) child.label))
               child.children child.isWord)]
          (child.label.drop (cpl (c :: rest) child.label)).isEmpty) = true := by
      rw [wfNode_eq]
      refine (wfChildren_cons_iff _ _ _).2 ⟨?_, ?_, ?_, ?_, ?_⟩
      · simpa [Node.label] using hrem
      · simp [Node.label]
      · rw [wfNode_eq]
        simpa [Node.children] using (wfNode_eq child ▸ hch.2.2)
      · simp [firstKeyGt]
      · simp [wfChildren]
    have hih := ih hwfnew
    have hcnew : countNodes
        (Node.mk (child.label.take (cpl (c :: rest) child.label))
          [((child.label.drop (cpl (c :: rest) child.label)).headI,
             Node.mk (child.label.drop (cpl (c :: rest) child.label))
               child.children child.isWord)]
          (child.label.drop (cpl (c :: rest) child.label)).isEmpty)
        = 1 + countNodes child := by
      cases child with
      | mk a b cw => simp [countNodes, countList, Node.children]
    simp only [countNodes]
    have := countList_setChild_some cs c child
      (insertNode
        (Node.mk (child.label.take (cpl (c :: rest) child.label))
          [((child.label.drop (cpl (c :: rest) child.label)).headI,
             Node.mk (child.label.drop (cpl (c :: rest) child.label))
               child.children child.isWord)]
          (child.label.drop (cpl (c :: rest) child.label)).isEmpty)
        ((c :: rest).drop (cpl (c :: rest) child.label))).1 h hx
    omega

theorem insertNode_delta_le_two : ∀ (n : Node) (word : ByteStr),
    (insertNode n word).2 ≤ 2 := by
  intro n word
  induction n, word using insertNode.induct with
  | case1 l cs w => rw [insertNode_nil]; omega
  | case2 l cs w c rest hx => rw [insertNode_cons_none l cs w c rest hx]; omega
  | case3 l cs w c rest child hx hk ih =>
    rw [insertNode_cons_descend l cs w c rest child hx hk]
    exact ih
  | case4 l cs w c rest child hx hk ih =>
    rw [insertNode_cons_split l cs w c rest child hx hk]
    have hklt : cpl (c :: rest) child.label < child.label.length := by
      have := cpl_le_right (c :: rest) child.label
      omega
    -- the inner call marks the fresh node or hangs a single leaf below it
    cases hdw : (c :: rest).drop (cpl (c :: rest) child.label) with
    | nil =>
      rw [insertNode_nil]
      omega
    | cons d ds =>
      have hka : cpl (c :: rest) child.label < (c :: rest).length := by
        by_contra hcon
        have hnil : List.drop (cpl (c :: rest) child.label) (c :: rest) = [] :=
          List.drop_eq_nil_iff_le.2 (by omega)
        rw [hnil] at hdw
        exact absurd hdw (by simp)
      have hne := cpl_head_ne (c :: rest) child.label hka hklt
      rw [hdw] at hne
      simp only [List.headI] at hne
      have hlu : lookupChild
          [((child.label.drop (cpl (c :: rest) child.label)).headI,
             Node.mk (child.label.drop (cpl (c :: rest) child.label))
               child.children child.isWord)] d = none := by
        simp only [lookupChild]
        rw [if_neg (by exact fun hh => hne hh)]
      rw [insertNode_cons_none _ _ _ _ _ hlu]
      omega

theorem insertNode_delta_le_one : ∀ (l : ByteStr) (cs : List (Nat × Node))
    (w : Bool) (word : ByteStr),
    (word = [] ∨ lookupChild cs word.headI = none) →
    (insertNode (Node.mk l cs w) word).2 ≤ 1 := by
  intro l cs w word h
  cases word with
  | nil => rw [insertNode_nil]; omega
  | cons c rest =>
    rcases h with h | h
    · cases h
    · simp only [List.headI] at h
      rw [insertNode_cons_none l cs w c rest h]

theorem insertNode_id : ∀ (n : Node) (word : ByteStr), wfNode n = true →
    Sem n word → insertNode n word = (n, 0) := by
  intro n word
  induction n, word using insertNode.induct with
  | case1 l cs w =>
    intro h hs
    rw [insertNode_nil]
    rcases (sem_mk_iff l cs w []).1 hs with ⟨_, rfl⟩ | ⟨k, c, u, hm, habs, _⟩
    · rfl
    · simp only [wfNode] at h
      have := (wf_children_of_mem cs k c h hm).1
      cases hl : c.label with
      | nil => exact absurd hl this
      | cons b bt => rw [hl] at habs; cases habs
  | case2 l cs w c rest hx =>
    intro h hs
    simp only [wfNode] at h
    rcases (sem_mk_iff l cs w (c :: rest)).1 hs with ⟨habs, _⟩ | ⟨k, ch, u, hm, heq, hsu⟩
    · cases habs
    · have hch := wf_children_of_mem cs k ch h hm
      have hkc : k = c := by
        cases hl : ch.label with
        | nil => exact absurd hl hch.1
        | cons b bt =>
          rw [hl] at heq
          have : b = c := by
            have := congrArg List.headI heq
            simpa [List.headI] using this.symm
          have hb := hch.2.1
          rw [hl] at hb
          simp only [List.headI] at hb
          omega
      subst hkc
      rw [wf_mem_lookup cs k ch h hm] at hx
      cases hx
  | case3 l cs w c rest child hx hk ih =>
    intro h hs
    simp only [wfNode] at h
    have hch := wf_children_of_mem cs c child h (lookupChild_mem cs c child hx)
    rcases (sem_mk_iff l cs w (c :: rest)).1 hs with ⟨habs, _⟩ | ⟨k, ch, u, hm, heq, hsu⟩
    · cases habs
    · have hchm := wf_children_of_mem cs k ch h hm
      have hkc : k = c := by
        cases hl : ch.label with
        | nil => exact absurd hl hchm.1
        | cons b bt =>
          rw [hl] at heq
          have hbc : b = c := by
            have := congrArg List.headI heq
            simpa [List.headI] using this.symm
          have hb := hchm.2.1
          rw [hl] at hb
          simp only [List.headI] at hb
          omega
      subst hkc
      have hcc : ch = child := by
        have := wf_mem_lookup cs k ch h hm
        rw [hx] at this
        injection this with this
        exact this.symm
      subst hcc
      -- the remaining word is exactly u, and the child already stores it
      have hu : (k :: rest).drop (cpl (k :: rest) ch.label) = u := by
        rw [hk, heq]
        exact List.drop_left _ _
      rw [insertNode_cons_descend l cs w k rest ch hx hk]
      rw [hu] at ih ⊢
      rw [ih hch.2.2 hsu]
      rw [setChild_self cs k ch h hx]
  | case4 l cs w c rest child hx hk ih =>
    intro h hs
    simp only [wfNode] at h
    rcases (sem_mk_iff l cs w (c :: rest)).1 hs with ⟨habs, _⟩ | ⟨k, ch, u, hm, heq, hsu⟩
    · cases habs
    · have hchm := wf_children_of_mem cs k ch h hm
      have hkc : k = c := by
        cases hl : ch.label with
        | nil => exact absurd hl hchm.1
        | cons b bt =>
          rw [hl] at heq
          have hbc : b = c := by
            have := congrArg List.headI heq
            simpa [List.headI] using this.symm
          have hb := hchm.2.1
          rw [hl] at hb
          simp only [List.headI] at hb
          omega
      subst hkc
      have hcc : ch = child := by
        have := wf_mem_lookup cs k ch h hm
        rw [hx] at this
        injection this with this
        exact this.symm
      subst hcc
      -- the word extends the child label, so the common part is the whole
      -- label, contradicting the split hypothesis
      exact absurd (heq ▸ cpl_append ch.label u) hk

theorem Insert_root : ∀ (t : Tree) (w : ByteStr),
    (Insert t w).root = (insertNode t.root w).1 := by
  intro t w
  rfl

theorem Insert_N : ∀ (t : Tree) (w : ByteStr),
    (Insert t w).N = t.N + (insertNode t.root w).2 := by
  intro t w
  rfl

theorem foldl_Insert_wf : ∀ (ws : List ByteStr) (t : Tree),
    wfNode t.root = true → wfNode (List.foldl Insert t ws).root = true := by
  intro ws
  induction ws with
  | nil => intro t h; simpa using h
  | cons w ws ih =>
    intro t h
    simp only [List.foldl_cons]
    exact ih _ (by rw [Insert_root]; exact insertNode_wf _ _ h)

theorem foldl_Insert_label : ∀ (ws : List ByteStr) (t : Tree),
    (List.foldl Insert t ws).root.label = t.root.label := by
  intro ws
  induction ws with
  | nil => intro t; rfl
  | cons w ws ih =>
    intro t
    simp only [List.foldl_cons]
    rw [ih, Insert_root, insertNode_label]

theorem foldl_Insert_sem : ∀ (ws : List ByteStr) (t : Tree),
    wfNode t.root = true → ∀ x,
    (Sem (List.foldl Insert t ws).root x ↔ x ∈ ws ∨ Sem t.root x) := by
  intro ws
  induction ws with
  | nil => intro t h x; simp
  | cons w ws ih =>
    intro t h x
    simp only [List.foldl_cons]
    rw [ih _ (by rw [Insert_root]; exact insertNode_wf _ _ h)]
    rw [Insert_root]
    rw [insertNode_sem _ _ h]
    simp only [List.mem_cons]
    tauto

theorem foldl_Insert_count : ∀ (ws : List ByteStr) (t : Tree),
    wfNode t.root = true → t.N = countNodes t.root →
    (List.foldl Insert t ws).N = countNodes (List.foldl Insert t ws).root := by
  intro ws
  induction ws with
  | nil => intro t _ h; simpa using h
  | cons w ws ih =>
    intro t hwf h
    simp only [List.foldl_cons]
    refine ih _ (by rw [Insert_root]; exact insertNode_wf _ _ hwf) ?_
    rw [Insert_root, Insert_N, insertNode_count _ _ hwf, h]

theorem foldl_Insert_N_le : ∀ (ws : List ByteStr) (t : Tree),
    (List.foldl Insert t ws).N ≤ t.N + 2 * ws.length := by
  intro ws
  induction ws with
  | nil => intro t; simp
  | cons w ws ih =>
    intro t
    simp only [List.foldl_cons]
    have h1 := ih (Insert t w)
    have h2 : (Insert t w).N ≤ t.N + 2 := by
      rw [Insert_N]
      have := insertNode_delta_le_two t.root w
      omega
    simp only [List.length_cons]
    omega

theorem foldl_Insert_N_mono : ∀ (ws : List ByteStr) (t : Tree),
    t.N ≤ (List.foldl Insert t ws).N := by
  intro ws
  induction ws with
  | nil => intro t; simp
  | cons w ws ih =>
    intro t
    simp only [List.foldl_cons]
    have h1 := ih (Insert t w)
    have h2 : t.N ≤ (Insert t w).N := by
      rw [Insert_N]; omega
    omega

theorem NewTree_wf : wfNode NewTree.root = true := by
  simp [NewTree, wfNode, wfChildren]

theorem NewTree_sem : ∀ x, ¬ Sem NewTree.root x := by
  intro x h
  rcases (sem_mk_iff [] [] false x).1 h with ⟨_, habs⟩ | ⟨k, c, u, hm, _, _⟩
  · cases habs
  · simp at hm

theorem buildTree_wf : ∀ (ws : List ByteStr), wfNode (buildTree ws).root = true :=
  fun ws => foldl_Insert_wf ws NewTree NewTree_wf

theorem buildTree_label : ∀ (ws : List ByteStr), (buildTree ws).root.label = [] := by
  intro ws
  rw [buildTree, foldl_Insert_label]
  rfl

theorem buildTree_sem : ∀ (ws : List ByteStr) (x : ByteStr),
    Sem (buildTree ws).root x ↔ x ∈ ws := by
  intro ws x
  rw [buildTree, foldl_Insert_sem ws NewTree NewTree_wf]
  simp only [or_iff_left_iff_imp]
  exact fun h => absurd h (NewTree_sem x)

theorem buildTree_count : ∀ (ws : List ByteStr),
    (buildTree ws).N = countNodes (buildTree ws).root :=
  fun ws => foldl_Insert_count ws NewTree NewTree_wf (by rfl)

theorem buildTree_N_pos : ∀ (ws : List ByteStr), 1 ≤ (buildTree ws).N :=
  fun ws => le_trans (by rfl) (foldl_Insert_N_mono ws NewTree)

theorem buildTree_N_le : ∀ (ws : List ByteStr), ws ≠ [] →
    (buildTree ws).N ≤ 2 * ws.length := by
  intro ws h
  cases ws with
  | nil => exact absurd rfl h
  | cons w ws' =>
    rw [buildTree, List.foldl_cons]
    have h1 : (Insert NewTree w).N ≤ 2 := by
      rw [Insert_N]
      have hd := insertNode_delta_le_one [] [] false w
        (by cases w <;> simp [lookupChild])
      have : (Insert NewTree w).N = 1 + (insertNode (Node.mk [] [] false) w).2 := rfl
      simp only [NewTree]
      omega
    have h2 := foldl_Insert_N_le ws' (Insert NewTree w)
    simp only [List.length_cons]
    omega

theorem gather_mem_iff : ∀ (n : Node) (path x : ByteStr),
    x ∈ gatherWords n path ↔ ∃ u, x = path ++ u ∧ Sem n u := by
  intro n
  induction n using node_ind with
  | step l cs w ih =>
    have hlist : ∀ (cs' : List (Nat × Node)),
        (∀ k c, (k, c) ∈ cs' → ∀ path x,
          x ∈ gatherWords c path ↔ ∃ u, x = path ++ u ∧ Sem c u) →
        ∀ path x, (x ∈ gatherList cs' path ↔
          ∃ k c u, (k, c) ∈ cs' ∧ x = path ++ (c.label ++ u) ∧ Sem c u) := by
      intro cs'
      induction cs' with
      | nil => intro _ path x; simp [gatherList]
      | cons p rest ihl =>
        intro hih path x
        obtain ⟨k1, c1⟩ := p
        simp only [gatherList, List.mem_append]
        rw [hih k1 c1 (List.mem_cons_self _ _) (path ++ c1.label) x]
        rw [ihl (fun k c hm => hih k c (List.mem_cons_of_mem _ hm)) path x]
        constructor
        · rintro (⟨u, rfl, hs⟩ | ⟨k, c, u, hm, rfl, hs⟩)
          · exact ⟨k1, c1, u, List.mem_cons_self _ _, by rw [List.append_assoc], hs⟩
          · exact ⟨k, c, u, List.mem_cons_of_mem _ hm, rfl, hs⟩
        · rintro ⟨k, c, u, hm, rfl, hs⟩
          rcases List.mem_cons.1 hm with h1 | h1
          · cases h1
            exact Or.inl ⟨u, by rw [List.append_assoc], hs⟩
          · exact Or.inr ⟨k, c, u, h1, rfl, hs⟩
    intro path x
    simp only [gatherWords, List.mem_append]
    rw [hlist cs ih path x]
    constructor
    · rintro (hw | ⟨k, c, u, hm, rfl, hs⟩)
      · cases hwb : w with
        | false => rw [hwb] at hw; simp at hw
        | true =>
          rw [hwb] at hw
          simp only [if_true, List.mem_singleton] at hw
          subst hw
          exact ⟨[], by simp, (sem_mk_iff l cs true []).2 (Or.inl ⟨rfl, rfl⟩)⟩
      · exact ⟨c.label ++ u, rfl,
          (sem_mk_iff l cs w _).2 (Or.inr ⟨k, c, u, hm, rfl, hs⟩)⟩
    · rintro ⟨u, rfl, hs⟩
      rcases (sem_mk_iff l cs w u).1 hs with ⟨rfl, rfl⟩ | ⟨k, c, u', hm, rfl, hs'⟩
      · exact Or.inl (by simp)
      · exact Or.inr ⟨k, c, u', hm, rfl, hs'⟩

theorem gather_nil_iff : ∀ (n : Node) (x : ByteStr),
    x ∈ gatherWords n [] ↔ Sem n x := by
  intro n x
  rw [gather_mem_iff]
  simp

theorem buildTree_gather : ∀ (ws : List ByteStr) (x : ByteStr),
    x ∈ gatherWords (buildTree ws).root [] ↔ x ∈ ws := by
  intro ws x
  rw [gather_nil_iff, buildTree_sem]

/-- C4: Insert is idempotent.  For every well-formed tree (the shape
invariant maintained by NewTree and Insert, and demanded of trees by the
specification) and every word already present in it, inserting that word
again leaves the tree unchanged: the find results for every query and fuel,
the tracked node counter N, and the node count are all unchanged, and no
new nodes are created. -/
theorem claim_C4_insert_idempotent :
    ∀ (t : Tree) (w : ByteStr), wfNode t.root = true →
    w ∈ gatherWords t.root [] →
    Insert t w = t
    ∧ (∀ p fuel, FindWords (Insert t w) p fuel = FindWords t p fuel)
    ∧ (Insert t w).N = t.N
    ∧ countNodes (Insert t w).root = countNodes t.root := by
  intro t w hwf hmem
  have hsem : Sem t.root w := (gather_nil_iff _ _).1 hmem
  have hid := insertNode_id t.root w hwf hsem
  have heq : Insert t w = t := by
    cases t with
    | mk root N =>
      show Tree.mk (insertNode root w).1 (N + (insertNode root w).2) = Tree.mk root N
      rw [hid]
      rfl
  exact ⟨heq, fun p fuel => by rw [heq], by rw [heq], by rw [heq]⟩

theorem claim_C4_witness :
    Insert (buildTree [[97], [97, 98]]) [97] = buildTree [[97], [97, 98]] :=
  (claim_C4_insert_idempotent (buildTree [[97], [97, 98]]) [97]
    (buildTree_wf _)
    ((buildTree_gather [[97], [97, 98]] [97]).2 (by simp))).1

/-- C8: every tree reachable from NewTree by Insert calls satisfies the
structural invariant: every child of every node sits under the key equal to
the first byte of its nonempty label, no two children of a node share a
first byte (the children list is strictly key-ordered), and only the root
has an empty label. -/
theorem claim_C8_structural_invariant :
    ∀ (ws : List ByteStr),
      wfNode (buildTree ws).root = true ∧ (buildTree ws).root.label = [] :=
  fun ws => ⟨buildTree_wf ws, buildTree_label ws⟩

/-- C9 counterexample: after inserting a sequence of zero words the node
count is 1, not at most 2 times 0: the claimed bound fails for the empty
insertion sequence. -/
theorem claim_C9_counterexample :
    (buildTree []).N = 1 ∧ ¬ ((buildTree []).N ≤ 2 * ([] : List ByteStr).length) :=
  ⟨rfl, by decide⟩

/-- C9 amended: for every nonempty sequence of N words inserted into a tree
created by NewTree, the tracked node counter is at most 2 N, is at least 1,
and equals the actual number of nodes of the tree (for the empty sequence
the count is exactly 1, the root). -/
theorem claim_C9_amended :
    ∀ (ws : List ByteStr), ws ≠ [] →
      (buildTree ws).N ≤ 2 * ws.length ∧ 1 ≤ (buildTree ws).N
        ∧ (buildTree ws).N = countNodes (buildTree ws).root :=
  fun ws h => ⟨buildTree_N_le ws h, buildTree_N_pos ws, buildTree_count ws⟩

theorem claim_C9_witness :
    (buildTree [[97]]).N ≤ 2 * [[97]].length ∧ 1 ≤ (buildTree [[97]]).N
      ∧ (buildTree [[97]]).N = countNodes (buildTree [[97]]).root :=
  claim_C9_amended [[97]] (by simp)

/-- When the query diverges from the label of the selected child (neither
containment holds), no branch of the source loop body fires and the loop
state does not change: the loop never returns, whatever the fuel. -/
theorem findLoop_stuck : ∀ (cur child : Node) (path p : ByteStr),
    p ≠ [] →
    lookupChild cur.children p.headI = some child →
    ¬ (child.label.length ≤ p.length ∧ p.take child.label.length = child.label) →
    child.label.take p.length ≠ p →
    ∀ fuel, findLoop fuel cur path p = none := by
  intro cur child path p hp hlk h1 h2 fuel
  induction fuel with
  | zero => rfl
  | succ fuel ih =>
    simp only [findLoop, hlk]
    rw [if_neg hp]
    rw [if_neg h1, if_neg h2]
    exact ih

/-- C1, code bug: with the word roman stored, the query rx should return
the empty set of words (no stored word starts with rx), but the source
find-words loop never returns: the query diverges from the child label
part way through, no branch of the loop body fires, the state does not
change and the loop spins forever.  In the fuel model the call yields
no result for every fuel. -/
theorem claim_C1_find_words_diverges :
    ∀ fuel, FindWords (buildTree [[114, 111, 109, 97, 110]]) [114, 120] fuel = none := by
  have hroot : (buildTree [[114, 111, 109, 97, 110]]).root
      = Node.mk [] [(114, Node.mk [114, 111, 109, 97, 110] [] true)] false := by
    show (insertNode (Node.mk [] [] false) [114, 111, 109, 97, 110]).1
        = Node.mk [] [(114, Node.mk [114, 111, 109, 97, 110] [] true)] false
    rw [insertNode_cons_none [] [] false 114 [111, 109, 97, 110] rfl]
    rfl
  intro fuel
  rw [FindWords, hroot]
  exact findLoop_stuck _ (Node.mk [114, 111, 109, 97, 110] [] true) [] [114, 120]
    (by simp) (by rfl) (by decide) (by decide) fuel

/-- C2, code bug: the spec says that when neither containment holds between
the remaining query and the candidate child label (divergence) the call
returns an empty sequence after finitely many bounded iterations.  With the
word toaster stored and the query tx, the source loop instead repeats with
unchanged state forever: the call yields no result for every fuel. -/
theorem claim_C2_divergence_hangs :
    ∀ fuel, FindWords (buildTree [[116, 111, 97, 115, 116, 101, 114]])
      [116, 120] fuel = none := by
  have hroot : (buildTree [[116, 111, 97, 115, 116, 101, 114]]).root
      = Node.mk [] [(116, Node.mk [116, 111, 97, 115, 116, 101, 114] [] true)] false := by
    show (insertNode (Node.mk [] [] false) [116, 111, 97, 115, 116, 101, 114]).1
        = Node.mk [] [(116, Node.mk [116, 111, 97, 115, 116, 101, 114] [] true)] false
    rw [insertNode_cons_none [] [] false 116 [111, 97, 115, 116, 101, 114] rfl]
    rfl
  intro fuel
  rw [FindWords, hroot]
  exact findLoop_stuck _ (Node.mk [116, 111, 97, 115, 116, 101, 114] [] true) [] [116, 120]
    (by simp) (by rfl) (by decide) (by decide) fuel

theorem lex_app_lt : ∀ (p u : ByteStr), u ≠ [] → List.Lex (· < ·) p (p ++ u) := by
  intro p
  induction p with
  | nil =>
    intro u h
    cases u with
    | nil => exact absurd rfl h
    | cons a t => exact List.Lex.nil
  | cons x xs ih =>
    intro u h
    exact List.Lex.cons (ih u h)

theorem lex_key_lt : ∀ (p : ByteStr) (a b : Nat) (u v : ByteStr), a < b →
    List.Lex (· < ·) (p ++ a :: u) (p ++ b :: v) := by
  intro p
  induction p with
  | nil => intro a b u v h; exact List.Lex.rel h
  | cons x xs ih => intro a b u v h; exact List.Lex.cons (ih a b u v h)

theorem gatherList_eq : ∀ (cs : List (Nat × Node)) (path : ByteStr),
    gatherList cs path = gatherWords (Node.mk [] cs false) path := by
  intro cs path
  simp [gatherWords]

theorem gatherList_mem_iff : ∀ (cs : List (Nat × Node)) (path x : ByteStr),
    x ∈ gatherList cs path ↔
      ∃ k c u, (k, c) ∈ cs ∧ x = path ++ (c.label ++ u) ∧ Sem c u := by
  intro cs path x
  rw [gatherList_eq, gather_mem_iff]
  constructor
  · rintro ⟨u, rfl, hs⟩
    rcases (sem_mk_iff [] cs false u).1 hs with ⟨_, habs⟩ | ⟨k, c, u', hm, rfl, hs'⟩
    · cases habs
    · exact ⟨k, c, u', hm, rfl, hs'⟩
  · rintro ⟨k, c, u, hm, rfl, hs⟩
    exact ⟨c.label ++ u, rfl, (sem_mk_iff [] cs false _).2 (Or.inr ⟨k, c, u, hm, rfl, hs⟩)⟩

theorem gather_pairwise : ∀ (n : Node) (path : ByteStr), wfNode n = true →
    List.Pairwise (List.Lex (· < ·)) (gatherWords n path) := by
  intro n
  induction n using node_ind with
  | step l cs w ih =>
    intro path hwf
    simp only [wfNode] at hwf
    have hlist : ∀ (cs' : List (Nat × Node)) (path' : ByteStr),
        wfChildren cs' = true →
        (∀ k c, (k, c) ∈ cs' → ∀ q, List.Pairwise (List.Lex (· < ·)) (gatherWords c q)) →
        List.Pairwise (List.Lex (· < ·)) (gatherList cs' path') := by
      intro cs'
      induction cs' with
      | nil => intro path' _ _; simp [gatherList]
      | cons p2 rest ihl =>
        intro path' hw hih
        obtain ⟨k1, c1⟩ := p2
        have hw' := (wfChildren_cons_iff _ _ _).1 hw
        simp only [gatherList]
        rw [List.pairwise_append]
        refine ⟨hih k1 c1 (List.mem_cons_self _ _) _,
          ihl _ hw'.2.2.2.2 (fun k c hm => hih k c (List.mem_cons_of_mem _ hm)), ?_⟩
        intro a ha b hb
        obtain ⟨lt1, hl1⟩ : ∃ lt1, c1.label = k1 :: lt1 := by
          cases hlab : c1.label with
          | nil => exact absurd hlab hw'.1
          | cons z zs =>
            refine ⟨zs, ?_⟩
            have := hw'.2.1
            rw [hlab] at this
            simp only [List.headI] at this
            rw [this]
        rcases (gather_mem_iff c1 (path' ++ c1.label) a).1 ha with ⟨u, rfl, _⟩
        rcases (gatherList_mem_iff rest path' b).1 hb with ⟨k2, c2, u2, hm2, rfl, _⟩
        obtain ⟨lt2, hl2⟩ : ∃ lt2, c2.label = k2 :: lt2 := by
          have hc2 := wf_children_of_mem rest k2 c2 hw'.2.2.2.2 hm2
          cases hlab : c2.label with
          | nil => exact absurd hlab hc2.1
          | cons z zs =>
            refine ⟨zs, ?_⟩
            have := hc2.2.1
            rw [hlab] at this
            simp only [List.headI] at this
            rw [this]
        have hk12 : k1 < k2 := wf_key_lt rest k1 c1 hw k2 c2 hm2
        rw [hl1, hl2, List.append_assoc]
        exact lex_key_lt path' k1 k2 (lt1 ++ u) (lt2 ++ u2) hk12
    simp only [gatherWords]
    rw [List.pairwise_append]
    refine ⟨?_, hlist cs path hwf
      (fun k c hm q => ih k c hm q (wf_children_of_mem cs k c hwf hm).2.2), ?_⟩
    · cases w <;> simp
    · intro a ha b hb
      have hap : a = path := by
        cases w with
        | false => simp at ha
        | true => simpa using ha
      subst hap
      rcases (gatherList_mem_iff cs a b).1 hb with ⟨k2, c2, u2, hm2, rfl, _⟩
      have hc2 := wf_children_of_mem cs k2 c2 hwf hm2
      refine lex_app_lt a (c2.label ++ u2) ?_
      simp only [ne_eq, List.append_eq_nil]
      intro hcon
      exact hc2.1 hcon.1

theorem findLoop_sorted : ∀ (fuel : Nat) (cur : Node) (path p : ByteStr)
    (out : List ByteStr), wfNode cur = true →
    findLoop fuel cur path p = some out →
    List.Pairwise (List.Lex (· < ·)) out := by
  intro fuel
  induction fuel with
  | zero => intro cur path p out _ h; cases h
  | succ fuel ih =>
    intro cur path p out hwf h
    by_cases hp : p = []
    · rw [findLoop, if_pos hp] at h
      injection h with h
      subst h
      exact gather_pairwise cur path hwf
    · rw [findLoop, if_neg hp] at h
      cases hlk : lookupChild cur.children p.headI with
      | none =>
        simp only [hlk] at h
        injection h with h
        subst h
        exact List.Pairwise.nil
      | some child =>
        simp only [hlk] at h
        have hwfc : wfNode child = true := by
          have hm := lookupChild_mem _ _ _ hlk
          have := wf_children_of_mem cur.children p.headI child
            (wfNode_eq cur ▸ hwf) hm
          exact this.2.2
        by_cases h1 : child.label.length ≤ p.length
            ∧ p.take child.label.length = child.label
        · rw [if_pos h1] at h
          exact ih child _ _ out hwfc h
        · rw [if_neg h1] at h
          by_cases h2 : child.label.take p.length = p
          · rw [if_pos h2] at h
            injection h with h
            subst h
            exact gather_pairwise child _ hwfc
          · rw [if_neg h2] at h
            exact ih cur path p out hwf h

/-- C10: whenever the find-words operation terminates on a tree built by
NewTree and Insert, the returned words are in strictly increasing
lexicographic byte order (hence duplicate-free and stable across calls):
children are iterated in ascending key order while gathering. -/
theorem claim_C10_sorted_output :
    ∀ (ws : List ByteStr) (p : ByteStr) (fuel : Nat) (out : List ByteStr),
      FindWords (buildTree ws) p fuel = some out →
      List.Pairwise (List.Lex (· < ·)) out :=
  fun ws p fuel out h =>
    findLoop_sorted fuel (buildTree ws).root [] p out (buildTree_wf ws) h

theorem claim_C10_witness :
    List.Pairwise (List.Lex (· < ·)) [[97], [97, 98]] := by
  refine claim_C10_sorted_output [[97, 98], [97]] [] 1 [[97], [97, 98]] ?_
  have hr : (buildTree [[97, 98], [97]]).root
      = Node.mk [] [(97, Node.mk [97] [(98, Node.mk [98] [] true)] true)] false := by
    show (insertNode (insertNode (Node.mk [] [] false) [97, 98]).1 [97]).1
        = Node.mk [] [(97, Node.mk [97] [(98, Node.mk [98] [] true)] true)] false
    rw [insertNode_cons_none [] [] false 97 [98] rfl]
    simp only [setChild]
    rw [insertNode_cons_split [] [(97, Node.mk [97, 98] [] true)] false 97 []
      (Node.mk [97, 98] [] true) rfl (by decide)]
    have hinner : cpl [97] (Node.mk [97, 98] [] true).label = 1 := by decide
    rw [hinner]
    simp only [Node.label, Node.children, Node.isWord]
    rw [show List.drop 1 [97, 98] = [98] from rfl,
        show List.take 1 [97, 98] = [97] from rfl,
        show List.drop 1 [97] = ([] : List Nat) from rfl]
    rw [insertNode_nil]
    rfl
  rw [FindWords, hr]
  rw [findLoop]
  rw [if_pos rfl]
  simp [gatherWords, gatherList, Node.label]

theorem beVal_u32be : ∀ (v : Nat), v < 4294967296 → beVal (u32be v) = v := by
  intro v h
  simp only [beVal, u32be, List.foldl]
  omega

theorem u32be_take : ∀ (a : Nat) (t : List Nat), (u32be a ++ t).take 4 = u32be a := by
  intro a t
  simp [u32be]

theorem u32be_drop : ∀ (a : Nat) (t : List Nat), (u32be a ++ t).drop 4 = t := by
  intro a t
  simp [u32be]

theorem serializeString_ok : ∀ (s : ByteStr), s.length < 65536 →
    serializeString s = .ok (u16be s.length ++ s) := by
  intro s h
  rw [serializeString, if_pos (by omega)]

theorem serializeString_err : ∀ (s : ByteStr) (e : SerializePanic),
    serializeString s = .error e → e = .labelLenOverflow := by
  intro s e h
  rw [serializeString] at h
  split at h
  · cases h
  · injection h with h
    exact h.symm

theorem serializeNode_err : ∀ (n : Node) (e : SerializePanic),
    serializeNode n = .error e → e = .labelLenOverflow := by
  intro n
  induction n using node_ind with
  | step l cs w ih =>
    have hlist : ∀ (cs' : List (Nat × Node)),
        (∀ k c, (k, c) ∈ cs' → ∀ e, serializeNode c = .error e → e = .labelLenOverflow) →
        ∀ e, serializeChildren cs' = .error e → e = .labelLenOverflow := by
      intro cs'
      induction cs' with
      | nil => intro _ e h; rw [serializeChildren] at h; cases h
      | cons p rest ihl =>
        intro hih e h
        obtain ⟨k1, c1⟩ := p
        rw [serializeChildren] at h
        cases hc : serializeNode c1 with
        | error e1 =>
          rw [hc] at h
          injection h with h
          exact h ▸ hih k1 c1 (List.mem_cons_self _ _) e1 hc
        | ok sc =>
          rw [hc] at h
          cases hr : serializeChildren rest with
          | error e2 =>
            rw [hr] at h
            injection h with h
            exact h ▸ ihl (fun k c hm => hih k c (List.mem_cons_of_mem _ hm)) e2 hr
          | ok srest =>
            rw [hr] at h
            cases h
    intro e h
    rw [serializeNode] at h
    cases hs : serializeString l with
    | error e1 =>
      rw [hs] at h
      injection h with h
      exact h ▸ serializeString_err l e1 hs
    | ok sl =>
      rw [hs] at h
      cases hc : serializeChildren cs with
      | error e2 =>
        rw [hc] at h
        injection h with h
        exact h ▸ hlist cs ih e2 hc
      | ok body =>
        rw [hc] at h
        cases h

theorem serializeNode_big : ∀ (n : Node), hasBigLabel n = true →
    ∀ out, serializeNode n ≠ .ok out := by
  intro n
  induction n using node_ind with
  | step l cs w ih =>
    have hlist : ∀ (cs' : List (Nat × Node)),
        (∀ k c, (k, c) ∈ cs' → hasBigLabel c = true → ∀ out, serializeNode c ≠ .ok out) →
        hasBigList cs' = true → ∀ out, serializeChildren cs' ≠ .ok out := by
      intro cs'
      induction cs' with
      | nil => intro _ h; rw [hasBigList] at h; cases h
      | cons p rest ihl =>
        intro hih hbig out h
        obtain ⟨k1, c1⟩ := p
        rw [hasBigList, Bool.or_eq_true] at hbig
        rw [serializeChildren] at h
        cases hc : serializeNode c1 with
        | error e1 => rw [hc] at h; cases h
        | ok sc =>
          rw [hc] at h
          rcases hbig with hb1 | hb2
          · exact hih k1 c1 (List.mem_cons_self _ _) hb1 sc hc
          · cases hr : serializeChildren rest with
            | error e2 => rw [hr] at h; cases h
            | ok srest =>
              exact ihl (fun k c hm => hih k c (List.mem_cons_of_mem _ hm)) hb2 srest hr
    intro hbig out h
    rw [hasBigLabel, Bool.or_eq_true] at hbig
    rw [serializeNode] at h
    cases hs : serializeString l with
    | error e1 => rw [hs] at h; cases h
    | ok sl =>
      rw [hs] at h
      rcases hbig with hb1 | hb2
      · simp only [decide_eq_true_eq] at hb1
        rw [serializeString, if_neg (by omega)] at hs
        cases hs
      · cases hc : serializeChildren cs with
        | error e2 => rw [hc] at h; cases h
        | ok body => exact hlist cs ih hb2 body hc

theorem serializeNode_big_err : ∀ (n : Node), hasBigLabel n = true →
    serializeNode n = .error .labelLenOverflow := by
  intro n h
  cases hc : serializeNode n with
  | error e => rw [serializeNode_err n e hc]
  | ok out => exact absurd hc (serializeNode_big n h out)

theorem fitsLimits_parts : ∀ (l : ByteStr) (cs : List (Nat × Node)) (w : Bool),
    fitsLimits (Node.mk l cs w) = true ↔
      (l.length < 65536 ∧ cs.length ≤ 255 ∧ fitsList cs = true) := by
  intro l cs w
  simp [fitsLimits, Bool.and_eq_true, decide_eq_true_eq, and_assoc]

theorem fitsList_mem : ∀ (cs : List (Nat × Node)) (k : Nat) (c : Node),
    fitsList cs = true → (k, c) ∈ cs → fitsLimits c = true := by
  intro cs
  induction cs with
  | nil => intro k c _ h; simp at h
  | cons p rest ih =>
    intro k c hf h
    obtain ⟨k1, c1⟩ := p
    rw [fitsList, Bool.and_eq_true] at hf
    rcases List.mem_cons.1 h with h1 | h1
    · cases h1; exact hf.1
    · exact ih k c hf.2 h1

theorem serializeNode_spec : ∀ (n : Node), fitsLimits n = true →
    serializeNode n = .ok (specRecord n) := by
  intro n
  induction n using node_ind with
  | step l cs w ih =>
    have hlist : ∀ (cs' : List (Nat × Node)),
        (∀ k c, (k, c) ∈ cs' → fitsLimits c = true → serializeNode c = .ok (specRecord c)) →
        fitsList cs' = true → serializeChildren cs' = .ok (specChildren cs') := by
      intro cs'
      induction cs' with
      | nil => intro _ _; rw [serializeChildren, specChildren]
      | cons p rest ihl =>
        intro hih hf
        obtain ⟨k1, c1⟩ := p
        rw [fitsList, Bool.and_eq_true] at hf
        rw [serializeChildren,
          hih k1 c1 (List.mem_cons_self _ _) hf.1,
          ihl (fun k c hm => hih k c (List.mem_cons_of_mem _ hm)) hf.2,
          specChildren]
    intro hfit
    rw [fitsLimits_parts] at hfit
    rw [serializeNode, serializeString_ok l hfit.1,
      hlist cs (fun k c hm => ih k c hm) hfit.2.2, specRecord]
    have hcnt : cs.length % 256 = cs.length := by omega
    rw [hcnt]

/-- C5: for every tree within the format limits (labels of at most 65535
bytes, at most 255 children per node, node count in the 32 bit field) and
satisfying the structural invariant (children strictly ordered by key, as
Insert maintains, so children are written in ascending key-byte order), the
byte stream of Serialize is exactly the spec-described layout: big-endian
4 byte magic, version 1 and node count, then the recursive pre-order node
records of 2 byte big-endian label length, label bytes, one isWord byte,
one child count byte, and per child one key byte followed by the child
record. -/
theorem Serialize_spec : ∀ (t : Tree), fitsLimits t.root = true →
    t.N % 4294967296 = t.N → Serialize t = .ok (specStream t) := by
  intro t hfit hn
  rw [Serialize, if_pos hn, serializeNode_spec t.root hfit, specStream, fmtVersion]

theorem claim_C5_wire_format :
    ∀ (t : Tree), wfNode t.root = true → fitsLimits t.root = true →
      t.N % 4294967296 = t.N →
      Serialize t = .ok (specStream t) := by
  intro t hwf hfit hn
  exact Serialize_spec t hfit hn

theorem claim_C5_witness :
    Serialize (buildTree [[97]]) = .ok (specStream (buildTree [[97]])) := by
  have hroot : (buildTree [[97]]).root
      = Node.mk [] [(97, Node.mk [97] [] true)] false := by
    show (insertNode (Node.mk [] [] false) [97]).1
        = Node.mk [] [(97, Node.mk [97] [] true)] false
    rw [insertNode_cons_none [] [] false 97 [] rfl]
    rfl
  refine claim_C5_wire_format (buildTree [[97]]) (buildTree_wf _) ?_ ?_
  · rw [hroot]
    rfl
  · have h1 : (buildTree [[97]]).N = 1 + (insertNode (Node.mk [] [] false) [97]).2 := rfl
    rw [h1, insertNode_cons_none [] [] false 97 [] rfl]
    rfl

/-- C6: a stream whose header carries the right magic but a version other
than 1 is rejected with the unsupported-version error, a stream whose magic
does not match is rejected with the invalid-format error, and the two
error kinds are distinct (the magic is checked first). -/
theorem claim_C6_header_rejection :
    ∀ (m v n : Nat) (rest : List Nat), m < 4294967296 → v < 4294967296 →
      ((m ≠ ctreMagic →
        DeserializeTree (u32be m ++ u32be v ++ u32be n ++ rest)
          = .error .invalidFormat)
      ∧ (m = ctreMagic → v ≠ 1 →
        DeserializeTree (u32be m ++ u32be v ++ u32be n ++ rest)
          = .error .unsupportedVersion)
      ∧ DeserializeError.invalidFormat ≠ DeserializeError.unsupportedVersion) := by
  intro m v n rest hm hv
  have hlen : 12 ≤ (u32be m ++ u32be v ++ u32be n ++ rest).length := by
    simp [u32be]
  have ht1 : (u32be m ++ u32be v ++ u32be n ++ rest).take 4 = u32be m :=
    u32be_take m _
  have hd1 : (u32be m ++ u32be v ++ u32be n ++ rest).drop 4
      = u32be v ++ u32be n ++ rest := u32be_drop m _
  refine ⟨?_, ?_, by simp⟩
  · intro hne
    rw [DeserializeTree, if_pos hlen, ht1, beVal_u32be m hm, if_neg hne]
  · intro heq hv1
    rw [DeserializeTree, if_pos hlen, ht1, beVal_u32be m hm, if_pos heq, hd1]
    have ht2 : List.take 4 (u32be v ++ u32be n ++ rest) = u32be v := u32be_take v _
    rw [ht2, beVal_u32be v hv]
    rw [if_neg (by rw [fmtVersion]; exact hv1)]

theorem claim_C6_witness :
    (DeserializeTree (u32be 1414676805 ++ u32be 1 ++ u32be 1 ++ [])
        = .error .invalidFormat)
    ∧ (DeserializeTree (u32be ctreMagic ++ u32be 2 ++ u32be 1 ++ [])
        = .error .unsupportedVersion) :=
  ⟨(claim_C6_header_rejection 1414676805 1 1 [] (by decide) (by decide)).1 (by decide),
   (claim_C6_header_rejection ctreMagic 2 1 [] (by decide) (by decide)).2.1 rfl (by decide)⟩

/-- C7, as claimed, is false: the source does not report a recoverable
limit error.  At a tree whose node counter does not fit the 32 bit field
the serializer raises the node count panic (an unrecoverable fault,
modelled as the panic outcome of Serialize), not a recoverable error value
handed to the caller. -/
theorem claim_C7_counterexample :
    Serialize (Tree.mk (Node.mk [] [] false) 4294967296)
      = .error .nodeCountOverflow := by
  rw [Serialize, if_neg (by decide)]

/-- C7 amended: when the node count does not survive the uint32 field the
serializer panics with the node count fault before writing anything, and
when the count fits but some label exceeds 65535 bytes the recursive write
panics with the string length fault; neither condition is reported as a
recoverable error. -/
theorem claim_C7_amended :
    ∀ (t : Tree),
      (¬ t.N % 4294967296 = t.N → Serialize t = .error .nodeCountOverflow)
      ∧ (t.N % 4294967296 = t.N → hasBigLabel t.root = true →
          Serialize t = .error .labelLenOverflow) := by
  intro t
  constructor
  · intro h
    rw [Serialize, if_neg h]
  · intro h hbig
    rw [Serialize, if_pos h, serializeNode_big_err t.root hbig]

theorem claim_C7_witness :
    Serialize (Tree.mk (Node.mk (List.replicate 65536 97) [] false) 1)
      = .error .labelLenOverflow :=
  (claim_C7_amended (Tree.mk (Node.mk (List.replicate 65536 97) [] false) 1)).2
    (by decide)
    (by rw [hasBigLabel, hasBigList, List.length_replicate]; decide)

theorem deserializeString_spec : ∀ (s t2 : List Nat), s.length < 65536 →
    deserializeString (u16be s.length ++ (s ++ t2)) = .ok (s, t2) := by
  intro s t2 h
  have hb : s.length / 256 % 256 * 256 + s.length % 256 = s.length := by omega
  simp only [u16be, List.cons_append, List.nil_append, deserializeString]
  rw [hb]
  rw [if_pos (by simp only [List.length_append]; omega)]
  rw [List.take_left, List.drop_left]

theorem setChild_append : ∀ (acc : List (Nat × Node)) (k : Nat) (v : Node),
    (∀ k2 c2, (k2, c2) ∈ acc → k2 < k) → setChild acc k v = acc ++ [(k, v)] := by
  intro acc
  induction acc with
  | nil => intro k v _; rfl
  | cons p rest ih =>
    intro k v hb
    obtain ⟨k1, c1⟩ := p
    have h1 : k1 < k := hb k1 c1 (List.mem_cons_self _ _)
    rw [setChild, if_neg (by omega), if_neg (by omega)]
    rw [ih k v (fun k2 c2 hm => hb k2 c2 (List.mem_cons_of_mem _ hm))]
    rfl

theorem parseChildren_spec : ∀ (cs acc : List (Nat × Node)) (tail : List Nat),
    wfChildren cs = true → fitsList cs = true →
    (∀ k c, (k, c) ∈ cs → ∀ t2, ∃ hb,
      parseNode (specRecord c ++ t2) = .ok (c, ⟨t2, hb⟩)) →
    (∀ k2 c2 k3 c3, (k2, c2) ∈ acc → (k3, c3) ∈ cs → k2 < k3) →
    ∃ hb, parseChildren cs.length acc (specChildren cs ++ tail)
      = .ok (acc ++ cs, ⟨tail, hb⟩) := by
  intro cs
  induction cs with
  | nil =>
    intro acc tail _ _ _ _
    have h0 : specChildren ([] : List (Nat × Node)) = [] := by
      rw [specChildren.eq_def]
    rw [h0, List.nil_append, List.length_nil, parseChildren]
    exact ⟨Nat.le_refl _, by simp⟩
  | cons p rest ih =>
    intro acc tail hwf hfit hmem hacc
    obtain ⟨k1, c1⟩ := p
    have hwf2 := (wfChildren_cons_iff _ _ _).1 hwf
    rw [fitsList, Bool.and_eq_true] at hfit
    have hbytes : specChildren ((k1, c1) :: rest) ++ tail
        = k1 :: (specRecord c1 ++ (specChildren rest ++ tail)) := by
      rw [specChildren.eq_def]
      simp [List.append_assoc]
    rw [List.length_cons, hbytes, parseChildren]
    obtain ⟨h1, hp1⟩ := hmem k1 c1 (List.mem_cons_self _ _) (specChildren rest ++ tail)
    have hacc2 : setChild acc k1 c1 = acc ++ [(k1, c1)] :=
      setChild_append acc k1 c1
        (fun k2 c2 hm => hacc k2 c2 k1 c1 hm (List.mem_cons_self _ _))
    obtain ⟨h2, hp2⟩ := ih (acc ++ [(k1, c1)]) tail hwf2.2.2.2.2 hfit.2
      (fun k c hm t2 => hmem k c (List.mem_cons_of_mem _ hm) t2)
      (fun k2 c2 k3 c3 hm2 hm3 => by
        rcases List.mem_append.1 hm2 with ha | ha
        · exact hacc k2 c2 k3 c3 ha (List.mem_cons_of_mem _ hm3)
        · rcases List.mem_singleton.1 ha with h3
          have hk2 : k2 = k1 := congrArg Prod.fst h3
          rw [hk2]
          exact wf_key_lt rest k1 c1 hwf k3 c3 hm3)
    simp only [hp1, hacc2, hp2]
    refine ⟨by simp only [List.length_cons, List.length_append]; omega, ?_⟩
    simp [List.append_assoc]

theorem parseNode_of_E : ∀ (bs : List Nat) (c : Node) (rest : List Nat),
    parseNodeE bs = .ok (c, rest) → ∃ hb, parseNode bs = .ok (c, ⟨rest, hb⟩) := by
  intro bs c rest h
  simp only [parseNodeE] at h
  cases hp : parseNode bs with
  | error e => rw [hp] at h; cases h
  | ok pr =>
    obtain ⟨c2, r2⟩ := pr
    rw [hp] at h
    simp only [Except.ok.injEq, Prod.mk.injEq] at h
    obtain ⟨rfl, hv⟩ := h
    refine ⟨hv ▸ r2.property, ?_⟩
    exact congrArg _ (congrArg _ (Subtype.ext hv))

theorem parseNodeE_cases : ∀ (bs : List Nat) (lab : ByteStr) (wb cb : Nat)
    (bs3 : List Nat), deserializeString bs = .ok (lab, wb :: cb :: bs3) →
    parseNodeE bs = (match parseChildrenE cb [] bs3 with
      | .error e => .error e
      | .ok (cs, r) => .ok (Node.mk lab cs (wb == 1), r)) := by
  intro bs lab wb cb bs3 h
  simp only [parseNodeE]
  rw [parseNode]
  split
  · rename_i e heq
    split at heq
    · rename_i e2 heq2
      rw [h] at heq2
      cases heq2
    · rename_i lab2 bs1 heq2
      rw [h] at heq2
      injection heq2 with heq2
      injection heq2 with hl hb
      subst hl
      subst hb
      cases hpc : parseChildren cb [] bs3 with
      | error e2 =>
        simp only [hpc] at heq
        injection heq with he
        subst he
        simp only [parseChildrenE, hpc]
      | ok pr =>
        obtain ⟨cs2, r2⟩ := pr
        simp only [hpc] at heq
        cases heq
  · rename_i pr heq
    obtain ⟨nc, nr⟩ := pr
    split at heq
    · rename_i e2 heq2
      rw [h] at heq2
      cases heq2
    · rename_i lab2 bs1 heq2
      rw [h] at heq2
      injection heq2 with heq2
      injection heq2 with hl hb
      subst hl
      subst hb
      cases hpc : parseChildren cb [] bs3 with
      | error e2 =>
        simp only [hpc] at heq
        cases heq
      | ok pr2 =>
        obtain ⟨cs2, r2⟩ := pr2
        simp only [hpc] at heq
        injection heq with heq
        injection heq with hc hr
        subst hc
        have hval : r2.val = nc := congrArg Subtype.val hr
        subst hval
        simp only [parseChildrenE, hpc]

theorem parseNodeE_spec : ∀ (n : Node), wfNode n = true → fitsLimits n = true →
    ∀ tail, parseNodeE (specRecord n ++ tail) = .ok (n, tail) := by
  intro n
  induction n using node_ind with
  | step l cs w ih =>
    intro hwf hfit tail
    rw [fitsLimits_parts] at hfit
    have hwfc : wfChildren cs = true := by
      simp only [wfNode] at hwf
      exact hwf
    have hbytes : specRecord (Node.mk l cs w) ++ tail
        = u16be l.length
          ++ (l ++ ((if w then 1 else 0) :: cs.length :: (specChildren cs ++ tail))) := by
      rw [specRecord.eq_def]
      simp [List.append_assoc]
    have hds := deserializeString_spec l
      ((if w then 1 else 0) :: cs.length :: (specChildren cs ++ tail)) hfit.1
    obtain ⟨h2, hp2⟩ := parseChildren_spec cs [] tail hwfc hfit.2.2
      (fun k c hm t2 => parseNode_of_E (specRecord c ++ t2) c t2
        (ih k c hm
          (wf_children_of_mem cs k c hwfc hm).2.2
          (fitsList_mem cs k c hfit.2.2 hm) t2))
      (fun k2 c2 k3 c3 hm2 _ => absurd hm2 (List.not_mem_nil _))
    have hpE : parseChildrenE cs.length [] (specChildren cs ++ tail)
        = .ok ([] ++ cs, tail) := by
      simp only [parseChildrenE, hp2]
    rw [hbytes, parseNodeE_cases _ l (if w then 1 else 0) cs.length
      (specChildren cs ++ tail) hds]
    simp only [hpE, List.nil_append]
    cases w with
    | false => rfl
    | true => rfl

theorem DeserializeTree_spec : ∀ (t : Tree), wfNode t.root = true →
    fitsLimits t.root = true → t.N % 4294967296 = t.N →
    DeserializeTree (specStream t) = .ok t := by
  intro t hwf hfit hn
  have hN : t.N < 4294967296 := by omega
  have hlen : 12 ≤ (specStream t).length := by
    simp [specStream, u32be]
  have h1 : (specStream t).take 4 = u32be ctreMagic := by
    simp [specStream, u32be]
  have h2 : ((specStream t).drop 4).take 4 = u32be 1 := by
    simp [specStream, u32be]
  have h3 : ((specStream t).drop 8).take 4 = u32be t.N := by
    simp [specStream, u32be]
  have h4 : (specStream t).drop 12 = specRecord t.root := by
    simp [specStream, u32be]
  have h5 := parseNodeE_spec t.root hwf hfit []
  rw [List.append_nil] at h5
  rw [DeserializeTree, if_pos hlen, h1,
    beVal_u32be ctreMagic (by rw [ctreMagic]; omega), h2, beVal_u32be 1 (by omega),
    if_pos rfl, if_pos (show (1 : Nat) = fmtVersion from rfl), h4, h3,
    beVal_u32be t.N hN, h5]

/-- C3 counterexample: build a tree from the one-word set containing the
65536 byte word of letter a repeated; serializing it does not succeed, it
hits the string length panic, so the claimed round trip fails for this
finite word set. -/
theorem claim_C3_counterexample :
    Serialize (buildTree [97 :: List.replicate 65535 97])
      = .error .labelLenOverflow := by
  have hpair : insertNode (Node.mk [] [] false) (97 :: List.replicate 65535 97)
      = (Node.mk [] [(97, Node.mk (97 :: List.replicate 65535 97) [] true)] false, 1) := by
    rw [insertNode_cons_none [] [] false 97 (List.replicate 65535 97) rfl]
    rfl
  have h0 : buildTree [97 :: List.replicate 65535 97]
      = Insert NewTree (97 :: List.replicate 65535 97) := rfl
  have h1 : Insert NewTree (97 :: List.replicate 65535 97)
      = Tree.mk (insertNode NewTree.root (97 :: List.replicate 65535 97)).1
          (NewTree.N + (insertNode NewTree.root (97 :: List.replicate 65535 97)).2) := rfl
  have h2 : Tree.mk (insertNode NewTree.root (97 :: List.replicate 65535 97)).1
        (NewTree.N + (insertNode NewTree.root (97 :: List.replicate 65535 97)).2)
      = Tree.mk (Node.mk [] [(97, Node.mk (97 :: List.replicate 65535 97) [] true)] false) 2 := by
    rw [show NewTree.root = Node.mk [] [] false from rfl, hpair]
    rfl
  have htree : buildTree [97 :: List.replicate 65535 97]
      = Tree.mk (Node.mk [] [(97, Node.mk (97 :: List.replicate 65535 97) [] true)] false) 2 :=
    h0.trans (h1.trans h2)
  have hbig : hasBigLabel
      (Tree.mk (Node.mk [] [(97, Node.mk (97 :: List.replicate 65535 97) [] true)] false) 2).root
      = true := by
    show hasBigLabel
      (Node.mk [] [(97, Node.mk (97 :: List.replicate 65535 97) [] true)] false) = true
    rw [hasBigLabel, hasBigList, hasBigLabel, hasBigList,
      List.length_cons, List.length_replicate]
    decide
  rw [htree, Serialize,
    if_pos (show (Tree.mk (Node.mk [] [(97, Node.mk (97 :: List.replicate 65535 97) [] true)]
      false) 2).N % 4294967296
      = (Tree.mk (Node.mk [] [(97, Node.mk (97 :: List.replicate 65535 97) [] true)] false) 2).N
      from rfl),
    serializeNode_big_err _ hbig]

/-- C3 amended: for every finite list of words whose built tree satisfies
the serialization format limits (labels of at most 65535 bytes, at most 255
children per node, node count within the 32 bit field), serializing and
then deserializing succeeds and returns the very same tree, whose
find-all-words query (the empty query) yields exactly the inserted word
set. -/
theorem claim_C3_roundtrip :
    ∀ (ws : List ByteStr), fitsLimits (buildTree ws).root = true →
      (buildTree ws).N % 4294967296 = (buildTree ws).N →
      ∃ bs, Serialize (buildTree ws) = .ok bs
        ∧ DeserializeTree bs = .ok (buildTree ws)
        ∧ FindWords (buildTree ws) [] 1
            = some (gatherWords (buildTree ws).root [])
        ∧ (∀ x, x ∈ gatherWords (buildTree ws).root [] ↔ x ∈ ws) := by
  intro ws hfit hN
  refine ⟨specStream (buildTree ws), Serialize_spec _ hfit hN,
    DeserializeTree_spec _ (buildTree_wf ws) hfit hN, ?_, buildTree_gather ws⟩
  rw [FindWords, findLoop, if_pos rfl]

theorem claim_C3_witness :
    ∃ bs, Serialize (buildTree [[97]]) = .ok bs
      ∧ DeserializeTree bs = .ok (buildTree [[97]])
      ∧ FindWords (buildTree [[97]]) [] 1
          = some (gatherWords (buildTree [[97]]).root [])
      ∧ (∀ x, x ∈ gatherWords (buildTree [[97]]).root [] ↔ x ∈ [[97]]) := by
  refine claim_C3_roundtrip [[97]] ?_ ?_
  · have hroot : (buildTree [[97]]).root
        = Node.mk [] [(97, Node.mk [97] [] true)] false := by
      show (insertNode (Node.mk [] [] false) [97]).1
          = Node.mk [] [(97, Node.mk [97] [] true)] false
      rw [insertNode_cons_none [] [] false 97 [] rfl]
      rfl
    rw [hroot]
    rfl
  · have h1 : (buildTree [[97]]).N = 1 + (insertNode (Node.mk [] [] false) [97]).2 := rfl
    rw [h1, insertNode_cons_none [] [] false 97 [] rfl]
    rfl

end CTrie
